import Mathlib

set_option synthInstance.maxSize 1024

/-!
Verification of the DVM-Scheduler repository (src/bin/workday.py, src/bin/scheduler.py,
src/bin/day.py).  The Python data model and operations are embedded shallowly:
lists indexed by `dvm.value` become functions out of `DVM`, in-place mutation becomes
explicit state passing, raised exceptions become `Except String` results, and Python
ints become `Int` (clock hours, which the code keeps in 0..24, become `Nat`).
-/

/-- DVM's name corresponding to their index (workday.py `class DVM(IntEnum)`). -/
inductive DVM where
  | LO | LP | EJS | JA | EDS
deriving DecidableEq, Repr

/-- `dvm.value` of the Python IntEnum. -/
def DVM.value : DVM → Nat
  | .LO => 0 | .LP => 1 | .EJS => 2 | .JA => 3 | .EDS => 4

/-- Iteration order of `for dvm in DVM` (enum definition order). -/
def DVM.all : List DVM := [.LO, .LP, .EJS, .JA, .EDS]

instance : Fintype DVM where
  elems := ⟨{DVM.LO, DVM.LP, DVM.EJS, DVM.JA, DVM.EDS}, by decide⟩
  complete := by intro x; cases x <;> decide

/-- Types of day events (workday.py `class DAY_TYPE(Enum)`). -/
inductive DAY_TYPE where
  | APPOINTMENT | SURGERY | BOTH
deriving DecidableEq, Repr

/-- Lunch durations by dayNum (workday.py `LUNCH_LENGTH`); `.get(dayNum, 1)` defaults 1. -/
def LUNCH_LENGTH (dayNum : Nat) : Nat :=
  if dayNum = 0 then 2 else if dayNum = 1 then 2 else 1

/-- Standard off-days mapping by dayNum (workday.py `STANDARD_OFF`). -/
def STANDARD_OFF (dayNum : Nat) : List DVM :=
  if dayNum = 0 then [.LP, .EJS]
  else if dayNum = 1 then [.JA]
  else if dayNum = 2 then [.LO, .EDS]
  else if dayNum = 4 then [.LO]
  else []

/-- workday.py `@dataclass class Shift`. -/
structure Shift where
  dayNum : Nat := 0
  clockIn : Option Nat := none
  clockOut : Option Nat := none
  lunchStart : Option Nat := none
  dayType : Option DAY_TYPE := none
  vacation : Option (Nat × Nat) := none
  standardOff : Bool := false
deriving DecidableEq, Repr

/-- workday.py `Shift.workedHoursAfterLunchSet` (deducts lunch only when set). -/
def Shift.workedHoursAfterLunchSet (s : Shift) : Int :=
  match s.clockIn, s.clockOut with
  | some ci, some co =>
    let total : Int := (co : Int) - (ci : Int) + 1
    if s.lunchStart.isSome then total - LUNCH_LENGTH s.dayNum else total
  | _, _ => 0

/-- workday.py `Shift.workedHours`: handles lunch hours even if not declared yet. -/
def Shift.workedHours (s : Shift) : Int :=
  match s.clockIn, s.clockOut with
  | some ci, some co =>
    let total : Int := (co : Int) - (ci : Int) + 1
    if 13 < co then total - (if 1 < s.dayNum then 1 else 2) else total
  | _, _ => 0

/-- workday.py `@dataclass class WorkDay`; `shifts` is the list indexed by `dvm.value`. -/
structure WorkDay where
  weekday : Nat
  date : Nat
  month : Nat
  year : Nat
  isOpen : Bool := true
  closedReason : String := ""
  shifts : DVM → Shift

/-- `WorkDay.__post_init__`: one fresh `Shift(dayNum=weekday)` per DVM, with
`standardOff` set from `STANDARD_OFF` (weekday validation `0 <= weekday <= 5` holds
at every construction site in the embedding). -/
def mkWorkDay (weekday date month year : Nat) (isOpen : Bool) (closedReason : String) :
    WorkDay :=
  { weekday := weekday, date := date, month := month, year := year,
    isOpen := isOpen, closedReason := closedReason,
    shifts := fun v =>
      { dayNum := weekday, standardOff := (STANDARD_OFF weekday).contains v } }

/-- The mutation block of `WorkDay.setVet` (`shift.clockIn = clockIn; ...`):
the four assignments on the shift aliased at `dvm.value`. -/
def WorkDay.setVetWrite (w : WorkDay) (dvm : DVM) (clockIn clockOut : Nat)
    (dayType : Option DAY_TYPE) (lunchStart : Option Nat) : WorkDay :=
  { w with shifts := fun u =>
      if u = dvm then
        { w.shifts dvm with
            clockIn := some clockIn
            clockOut := some clockOut
            dayType := dayType
            lunchStart := lunchStart }
      else w.shifts u }

/-- `WorkDay.setVet`, modelled with the source's statement order: every validation
(`raise`) precedes every field assignment, and the returned `WorkDay` is the state of
the Python object when the call finishes (unchanged on an error, mutated on success).
The `isinstance(dayType, DAY_TYPE)` check can never fire in the embedding because the
argument is typed `Option DAY_TYPE`. -/
def WorkDay.setVetSt (w : WorkDay) (dvm : DVM) (clockIn clockOut : Nat)
    (dayType : Option DAY_TYPE) (lunchStart : Option Nat) :
    Option String × WorkDay :=
  if ¬(8 ≤ clockIn ∧ clockIn < 19 ∧ 8 < clockOut ∧ clockOut ≤ 19 ∧ clockIn < clockOut) then
    (some "Invalid clock times", w)
  else
    let shift := w.shifts dvm
    if shift.standardOff then
      (some "Tried to schedule on a standard day off.", w)
    else if (match shift.vacation with
             | some vac => decide (clockIn < vac.2 ∧ vac.1 < clockOut)
             | none => false : Bool) then
      (some "Shift overlaps vacation hours", w)
    else if dvm = DVM.EDS ∧ dayType = some DAY_TYPE.SURGERY then
      (some "Tried to assign EDS to surgery", w)
    else if (dvm ≠ DVM.JA ∧ dvm ≠ DVM.LO) ∧ dayType = some DAY_TYPE.BOTH then
      (some "Tried to schedule SURGERY into APPT day", w)
    else
      (none, w.setVetWrite dvm clockIn clockOut dayType lunchStart)

/-- `WorkDay.setVet` as an exception-propagating operation (used by the scheduler). -/
def WorkDay.setVet (w : WorkDay) (dvm : DVM) (clockIn clockOut : Nat)
    (dayType : Option DAY_TYPE) (lunchStart : Option Nat) : Except String WorkDay :=
  match w.setVetSt dvm clockIn clockOut dayType lunchStart with
  | (some e, _) => .error e
  | (none, w') => .ok w'

/-- `WorkDay.setVacation`. -/
def WorkDay.setVacation (w : WorkDay) (dvm : DVM) (startHour endHour : Nat) :
    Except String WorkDay :=
  if ¬(startHour < endHour ∧ endHour ≤ 24) then
    .error "Invalid vacation hours"
  else
    .ok { w with shifts := fun u => if u = dvm then
      { w.shifts dvm with vacation := some (startHour, endHour) } else w.shifts u }

/-- `WorkDay.ableToSchedule` (raises on invalid clock times, else a Bool). -/
def WorkDay.ableToSchedule (w : WorkDay) (dvm : DVM) (clockIn clockOut : Nat) :
    Except String Bool :=
  if ¬(8 ≤ clockIn ∧ clockIn < 19 ∧ 8 < clockOut ∧ clockOut ≤ 19 ∧ clockIn < clockOut) then
    .error "Invalid clock times"
  else
    let shift := w.shifts dvm
    if shift.standardOff then .ok false
    else
      match shift.vacation with
      | some vac => if clockIn < vac.2 ∧ vac.1 < clockOut then .ok false else .ok true
      | none => .ok true

/-- `WorkDay.isWorking`. -/
def WorkDay.isWorking (w : WorkDay) (dvm : DVM) : Bool :=
  (w.shifts dvm).clockIn.isSome

/-- `WorkDay.getLunchLength` (0 if `clockOut < 13`, else 2 on Mon/Tue, 1 otherwise). -/
def WorkDay.getLunchLength (w : WorkDay) (clockOut : Nat) : Nat :=
  if clockOut < 13 then 0 else if 1 < w.weekday then 1 else 2

/-- `WorkDay.getNumApptsOnShift`. -/
def WorkDay.getNumApptsOnShift (w : WorkDay) : Nat :=
  (DVM.all.filter (fun v => (w.shifts v).dayType = some DAY_TYPE.APPOINTMENT)).length

/-- day.py legacy `Day.getHoursWorked` core (per-DVM data as explicit arguments;
kept for reference: it deducts lunch only when a lunch was recorded, unlike
`Shift.workedHours`; the scheduler engine does not use it). -/
def Day.getHoursWorked (dayNum : Nat) (clockIn clockOut lunch : Nat) : Int :=
  if clockIn = 0 then 0
  else
    let clockDiff : Int := (clockOut : Int) - (clockIn : Int) + 1
    if lunch = 0 then clockDiff
    else if dayNum ≤ 1 then clockDiff - 2 else clockDiff - 1

/-! ### Calendar arithmetic (Python `calendar.monthrange` / `calendar.weekday`)

Proleptic Gregorian calendar; in Python, `datetime.date(1, 1, 1).weekday() = 0`
(Monday), and `calendar` numbers weekdays 0=Monday .. 6=Sunday. -/

/-- Gregorian leap year. -/
def isLeap (year : Nat) : Bool :=
  (year % 4 = 0 ∧ year % 100 ≠ 0) ∨ year % 400 = 0

/-- Number of days of a month (1..12). -/
def daysInMonth (year month : Nat) : Nat :=
  if month = 2 then (if isLeap year then 29 else 28)
  else if month = 4 ∨ month = 6 ∨ month = 9 ∨ month = 11 then 30
  else 31

/-- Days in the months of `year` strictly before `month`. -/
def daysBeforeMonth (year month : Nat) : Nat :=
  (List.range' 1 (month - 1)).foldl (fun acc m => acc + daysInMonth year m) 0

/-- Days in all years strictly before `year` (year 1 is the first year). -/
def daysBeforeYear (year : Nat) : Nat :=
  365 * (year - 1) + (year - 1) / 4 + (year - 1) / 400 - (year - 1) / 100

/-- 1-based ordinal of a date (Jan 1 of year 1 is day 1): `date.toordinal`. -/
def ordinalDay (year month date : Nat) : Nat :=
  daysBeforeYear year + daysBeforeMonth year month + date

/-- `calendar.weekday(year, month, date)`: 0=Monday .. 6=Sunday. -/
def weekdayOf (year month date : Nat) : Nat :=
  (ordinalDay year month date - 1) % 7

/-- `calendar.monthrange(year, month)` = (weekday of the 1st, number of days). -/
def monthrange (year month : Nat) : Nat × Nat :=
  (weekdayOf year month 1, daysInMonth year month)

/-! ### Scheduler construction (scheduler.py `Scheduler.__init__`) -/

/-- scheduler.py `class Scheduler` state.  `weeklyHours`/`monthlyHours` are created by
`generateSchedule` in Python; here they are fields initialized to zero. -/
structure Scheduler where
  month : Nat
  year : Nat
  firstWeekday : Nat
  numDays : Nat
  monthStartOffset : Nat
  monthEndOffset : Nat
  schedule : List WorkDay
  satSurgeon : DVM
  satSurgeonDayOff : Nat
  saturdayRecord : DVM → List Nat
  weeklyHours : DVM → Int
  monthlyHours : DVM → Int

/-- The current-month `WorkDay` entries (`for day in range(1, numDays+1)`, Sundays
skipped). -/
def inMonthDays (month year firstWeekday numDays : Nat)
    (closedDict : Nat → Option String) : List WorkDay :=
  (List.range' 1 numDays).filterMap fun day =>
    let wkday := (firstWeekday + day - 1) % 7
    if wkday = 6 then none
    else some (mkWorkDay wkday day month year (closedDict day).isNone
      ((closedDict day).getD ""))

/-- Trailing next-month padding (`for pad in range(1, monthEndOffset+1)`). -/
def trailingDays (month year monthEndOffset : Nat) : List WorkDay :=
  let nextMonth := month % 12 + 1
  let nextYear := year + (if month = 12 then 1 else 0)
  (List.range' 1 monthEndOffset).filterMap fun pad =>
    let wkday := weekdayOf nextYear nextMonth pad
    if wkday < 6 then some (mkWorkDay wkday pad nextMonth nextYear true "")
    else none

/-- The vacation-application loop of `Scheduler.__init__`: each request
`(dayNum, start, end)` is applied at index `(dayNum - 1) + monthStartOffset`
when that index is in range. -/
def applyVacations (monthStartOffset : Nat)
    (vacationArray : List (List (Nat × Nat × Nat))) (sched : List WorkDay) :
    Except String (List WorkDay) :=
  DVM.all.foldlM (fun sched dvm =>
    (vacationArray.getD dvm.value []).foldlM (fun (sched : List WorkDay) v =>
      let idx : Int := (v.1 : Int) - 1 + (monthStartOffset : Int)
      if 0 ≤ idx ∧ idx < (sched.length : Int) then
        match sched[idx.toNat]? with
        | some wd => (wd.setVacation dvm v.2.1 v.2.2).map (fun wd' => sched.set idx.toNat wd')
        | none => pure sched
      else pure sched) sched) sched

/-- `Scheduler.__init__`. -/
def mkScheduler (month year : Nat) (closedDict : Nat → Option String)
    (vacationArray : List (List (Nat × Nat × Nat))) (satSurgeon : DVM)
    (prevDays : Option (List WorkDay)) (satSurgeonDayOff : Nat) :
    Except String Scheduler :=
  if ¬(1 ≤ month ∧ month ≤ 12) then .error "Invalid month"
  else
    let fw := (monthrange year month).1
    let nd := (monthrange year month).2
    let monthStartOffset := if fw < 6 then fw else 0
    let lastWeekday := (fw + nd - 1) % 7
    let monthEndOffset := if lastWeekday = 6 then 0 else 5 - lastWeekday
    let lead : Except String (List WorkDay) :=
      if 0 < monthStartOffset then
        match prevDays with
        | none => .error "Incorrect prior days"
        | some pd => if pd.length = monthStartOffset then .ok pd
                     else .error "Incorrect prior days"
      else .ok []
    match lead with
    | .error e => .error e
    | .ok pd =>
      let sched0 := pd ++ inMonthDays month year fw nd closedDict
        ++ trailingDays month year monthEndOffset
      match applyVacations monthStartOffset vacationArray sched0 with
      | .error e => .error e
      | .ok sched =>
        .ok { month := month, year := year, firstWeekday := fw, numDays := nd,
              monthStartOffset := monthStartOffset, monthEndOffset := monthEndOffset,
              schedule := sched, satSurgeon := satSurgeon,
              satSurgeonDayOff := satSurgeonDayOff,
              saturdayRecord := fun _ => [], weeklyHours := fun _ => 0,
              monthlyHours := fun _ => 0 }

/-- Schedule entry at position `i` (a closed dummy day when out of range). -/
def Scheduler.wdAt (s : Scheduler) (i : Nat) : WorkDay :=
  s.schedule.getD i (mkWorkDay 0 0 0 0 false "")

/-! ### Greedy per-day assignment (scheduler.py `Scheduler._scheduleDay`)

The per-day state (the mutated `WorkDay` plus the scheduler's counters) is threaded
through one phase function per rule of the cascade.  Python truthiness is modelled
where it matters: `DVM.LO` is an `IntEnum` member of value 0, so `if primary` and
`if surgeon:` treat `DVM.LO` as falsy. -/

/-- State threaded through one `_scheduleDay` call. -/
structure DayCtx where
  sched : List WorkDay
  satSurgeon : DVM
  satSurgeonDayOff : Nat
  day : WorkDay
  weeklyHours : DVM → Int
  monthlyHours : DVM → Int
  saturdayRecord : DVM → List Nat

/-- `self.weeklyHours[v] += hrs; self.monthlyHours[v] += hrs`. -/
def DayCtx.bump (c : DayCtx) (v : DVM) (hrs : Int) : DayCtx :=
  let wk := fun u => if u = v then c.weeklyHours v + hrs else c.weeklyHours u
  let mo := fun u => if u = v then c.monthlyHours v + hrs else c.monthlyHours u
  { c with weeklyHours := wk, monthlyHours := mo }

/-- `self.saturdayRecord[v].append(ordinal)`. -/
def DayCtx.recordSat (c : DayCtx) (v : DVM) (ordinal : Nat) : DayCtx :=
  { c with saturdayRecord := fun u =>
      if u = v then c.saturdayRecord v ++ [ordinal] else c.saturdayRecord u }

/-- The closure `canAddToSchedule` of `_scheduleDay`: standard-off/vacation check via
`ableToSchedule`, then the weekly 40-hour cap using `getLunchLength` (which differs
from `workedHours` at `clockOut = 13`). -/
def DayCtx.canAddToSchedule (c : DayCtx) (dvm : DVM) (start stop : Nat) :
    Except String Bool := do
  let able ← c.day.ableToSchedule dvm start stop
  if ¬able then pure false
  else
    let hours : Int := (stop : Int) - (start : Int) + 1 - (c.day.getLunchLength stop : Int)
    if 40 < c.weeklyHours dvm + hours then pure false
    else pure true

/-- `day.setVet(...)` followed by the
`hrs = day.shifts[v].workedHours; weekly += hrs; monthly += hrs` pattern. -/
def DayCtx.placeAndCount (c : DayCtx) (dvm : DVM) (start stop : Nat) (dt : DAY_TYPE) :
    Except String DayCtx := do
  let day' ← c.day.setVet dvm start stop (some dt) none
  let hrs := (day'.shifts dvm).workedHours
  pure (DayCtx.bump { c with day := day' } dvm hrs)

/-- A `canAddToSchedule`-guarded placement. -/
def DayCtx.tryPlace (c : DayCtx) (dvm : DVM) (start stop : Nat) (dt : DAY_TYPE) :
    Except String DayCtx := do
  let ok ← c.canAddToSchedule dvm start stop
  if ok then c.placeAndCount dvm start stop dt else pure c

/-- LO fixed schedule (M: appt, T: BOTH, Th: appt); guarded by `day.ableToSchedule`
directly, with no weekly-cap check.  (The weekday 2/4 `return` is handled by the
caller `scheduleDay`.) -/
def phaseLO (c : DayCtx) : Except String DayCtx := do
  let lastThroughHour := if c.day.weekday < 2 then 19 else 17
  if c.day.weekday = 0 then do
    let able ← c.day.ableToSchedule DVM.LO 8 lastThroughHour
    if able then c.placeAndCount DVM.LO 8 lastThroughHour DAY_TYPE.APPOINTMENT else pure c
  else if c.day.weekday = 1 then do
    let able ← c.day.ableToSchedule DVM.LO 8 lastThroughHour
    if able then c.placeAndCount DVM.LO 8 lastThroughHour DAY_TYPE.BOTH else pure c
  else if c.day.weekday = 3 then do
    let able ← c.day.ableToSchedule DVM.LO 8 lastThroughHour
    if able then c.placeAndCount DVM.LO 8 lastThroughHour DAY_TYPE.APPOINTMENT else pure c
  else pure c

/-- Rule 1: JA surgery-into-appointments (BOTH) on Monday. -/
def phaseJA (c : DayCtx) : Except String DayCtx :=
  if c.day.weekday = 0 then
    c.tryPlace DVM.JA 8 (if c.day.weekday < 2 then 19 else 17) DAY_TYPE.BOTH
  else pure c

/-- Rule 2: LP Friday surgery, no lunch (`day.shifts[LP].lunchStart = None`, counters
bumped by `workedHours + 1`).  Unreachable in practice: `scheduleDay` returns before
this point on Fridays. -/
def phaseLP (c : DayCtx) : Except String DayCtx := do
  if c.day.weekday = 4 then do
    let ok ← c.canAddToSchedule DVM.LP 8 15
    if ok then do
      let day' ← c.day.setVet DVM.LP 8 15 (some DAY_TYPE.SURGERY) none
      let noLunch : Shift → Shift := fun sh => { sh with lunchStart := none }
      let day'' := { day' with shifts := fun u =>
        if u = DVM.LP then noLunch (day'.shifts DVM.LP) else day'.shifts u }
      let hrs := (day''.shifts DVM.LP).workedHours + 1
      pure (DayCtx.bump { c with day := day'' } DVM.LP hrs)
    else pure c
  else pure c

/-- The per-weekday primary surgeon table of rule 3. -/
def surgeonPrimary : Nat → Option DVM
  | 0 => some .JA | 1 => some .LO | 3 => some .EJS | 4 => some .LP | _ => none

/-- Rule 3 fallback scan `for cand in [LP, LO, EJS, JA]`. -/
def surgeonFallback (c : DayCtx) : List DVM → Except String (Option DVM)
  | [] => pure none
  | cand :: rest => do
      if cand ≠ DVM.EDS then do
        let ok ← c.canAddToSchedule cand 8 13
        if ok then pure (some cand) else surgeonFallback c rest
      else surgeonFallback c rest

/-- Rule 3: routine surgeon except Wednesday, morning block 8-13.
`if primary and ...` and `if surgeon:` use Python truthiness, under which
`DVM.LO` (IntEnum value 0) is falsy. -/
def phaseSurgeon (c : DayCtx) : Except String DayCtx := do
  if c.day.weekday ≠ 2 then do
    let primary := surgeonPrimary c.day.weekday
    let primaryOk ← (match primary with
      | some p =>
          if p.value ≠ 0 ∧ p ≠ DVM.EDS then c.canAddToSchedule p 8 13 else pure false
      | none => pure false)
    let surgeon ← if primaryOk then pure primary
                  else surgeonFallback c [DVM.LP, DVM.LO, DVM.EJS, DVM.JA]
    match surgeon with
    | some sg =>
        if sg.value ≠ 0 then c.placeAndCount sg 8 13 DAY_TYPE.SURGERY else pure c
    | none => pure c
  else pure c

/-- `sorted(DVM, key=lambda d: self.monthlyHours[d.value])` (stable, ascending). -/
def sortedByMonthly (mh : DVM → Int) : List DVM :=
  List.insertionSort (fun a b => mh a ≤ mh b) DVM.all

/-- Inner candidate loop of the non-Saturday "2 minimum" appointment pass
(`if needed == 0: break` at the top of each iteration). -/
def apptNeededInner (start stop : Nat) :
    List DVM → DayCtx → Int → Except String (DayCtx × Int)
  | [], c, needed => pure (c, needed)
  | d :: rest, c, needed => do
      if needed = 0 then pure (c, needed)
      else if c.day.isWorking d then apptNeededInner start stop rest c needed
      else do
        let ok ← c.canAddToSchedule d start stop
        if ok then do
          let c' ← c.placeAndCount d start stop DAY_TYPE.APPOINTMENT
          apptNeededInner start stop rest c' (needed - 1)
        else apptNeededInner start stop rest c needed

/-- Shape loop of the non-Saturday "2 minimum" pass: full day then 8-14, with
`if needed == 0: break` after each inner loop.  The candidate order is re-sorted by
monthly hours at each `for d in sorted(...)`. -/
def apptNeededShapes :
    List (Nat × Nat) → DayCtx → Int → Except String (DayCtx × Int)
  | [], c, needed => pure (c, needed)
  | (start, stop) :: rest, c, needed => do
      let (c', needed') ← apptNeededInner start stop (sortedByMonthly c.monthlyHours) c needed
      if needed' = 0 then pure (c', needed')
      else apptNeededShapes rest c' needed'

/-- Inner candidate loop of the "optional third" pass: no break inside, so every
placeable candidate of the shape is placed and `extra` can go negative. -/
def apptExtraInner (start stop : Nat) :
    List DVM → DayCtx → Int → Except String (DayCtx × Int)
  | [], c, extra => pure (c, extra)
  | d :: rest, c, extra => do
      if c.day.isWorking d then apptExtraInner start stop rest c extra
      else do
        let ok ← c.canAddToSchedule d start stop
        if ok then do
          let c' ← c.placeAndCount d start stop DAY_TYPE.APPOINTMENT
          apptExtraInner start stop rest c' (extra - 1)
        else apptExtraInner start stop rest c extra

/-- Shape loop of the "optional third" pass (`if extra == 0: break` before and after
each inner loop). -/
def apptExtraShapes :
    List (Nat × Nat) → DayCtx → Int → Except String (DayCtx × Int)
  | [], c, extra => pure (c, extra)
  | (start, stop) :: rest, c, extra => do
      if extra = 0 then pure (c, extra)
      else do
        let (c', extra') ← apptExtraInner start stop (sortedByMonthly c.monthlyHours) c extra
        if extra' = 0 then pure (c', extra')
        else apptExtraShapes rest c' extra'

/-- Inner candidate loop of the Saturday appointment fill: skips workers already
working and the Saturday surgeon, records the ordinal, and has no break inside, so
every placeable candidate of the shape is placed (`needed` can go negative). -/
def satFillInner (ordinal start stop : Nat) :
    List DVM → DayCtx → Int → Except String (DayCtx × Int)
  | [], c, needed => pure (c, needed)
  | d :: rest, c, needed => do
      if c.day.isWorking d ∨ d = c.satSurgeon then satFillInner ordinal start stop rest c needed
      else do
        let ok ← c.canAddToSchedule d start stop
        if ok then do
          let c' ← c.placeAndCount d start stop DAY_TYPE.APPOINTMENT
          satFillInner ordinal start stop rest (c'.recordSat d ordinal) (needed - 1)
        else satFillInner ordinal start stop rest c needed

/-- Shape loop of the Saturday appointment fill (`if needed == 0: break` before and
after each inner loop). -/
def satFillShapes (ordinal : Nat) :
    List (Nat × Nat) → DayCtx → Int → Except String (DayCtx × Int)
  | [], c, needed => pure (c, needed)
  | (start, stop) :: rest, c, needed => do
      if needed = 0 then pure (c, needed)
      else do
        let (c', n') ← satFillInner ordinal start stop (sortedByMonthly c.monthlyHours) c needed
        if n' = 0 then pure (c', n')
        else satFillShapes ordinal rest c' n'

/-- Rule 6, Saturday logic: ordinal of this Saturday computed from every schedule
entry with `weekday == 5 and date < day.date` (next-month padding Saturdays
included), monthly surgeon placement unless the ordinal equals the day off, then the
two-appointment fill. -/
def phaseSat (lastThroughHour : Nat) (c : DayCtx) (needed : Int) :
    Except String (DayCtx × Int) := do
  let prevSats := c.sched.filter (fun d => d.weekday = 5 ∧ d.date < c.day.date)
  let ordinal := prevSats.length + 1
  let c ← (do
    if ordinal ≠ c.satSurgeonDayOff then do
      let ok ← c.canAddToSchedule c.satSurgeon 8 13
      if ok then do
        let c' ← c.placeAndCount c.satSurgeon 8 13 DAY_TYPE.SURGERY
        pure (c'.recordSat c.satSurgeon ordinal)
      else pure c
    else pure c)
  satFillShapes ordinal [(8, lastThroughHour), (8, 14)] c needed

/-- Rule 7, fallback assurance: force full-day appointments for least-loaded
not-yet-working candidates while fewer than 2 appointments exist. -/
def fallbackAppts (lastThroughHour : Nat) :
    List DVM → DayCtx → Except String DayCtx
  | [], c => pure c
  | d :: rest, c => do
      if 2 ≤ c.day.getNumApptsOnShift then pure c
      else if ¬ c.day.isWorking d then do
        let ok ← c.canAddToSchedule d 8 lastThroughHour
        if ok then do
          let c' ← c.placeAndCount d 8 lastThroughHour DAY_TYPE.APPOINTMENT
          fallbackAppts lastThroughHour rest c'
        else fallbackAppts lastThroughHour rest c
      else fallbackAppts lastThroughHour rest c

/-- The assignment loop of `_staggerLunches`: sequential starts from the window
start, all wrapping back to the window start once exhausted. -/
def assignLunches (windowStart windowEnd : Nat) :
    List DVM → Nat → WorkDay → WorkDay
  | [], _, day => day
  | d :: rest, i, day =>
      let start := if windowEnd ≤ windowStart + i then windowStart else windowStart + i
      let setL : Shift → Shift := fun sh => { sh with lunchStart := some start }
      let day' := { day with shifts := (fun u =>
        if u = d then setL (day.shifts d) else day.shifts u) }
      assignLunches windowStart windowEnd rest (i + 1) day'

/-- `Scheduler._staggerLunches`: among workers with `clockOut > 14` and a duty type
other than pure surgery, LP first then ascending monthly hours (stable). -/
def staggerLunches (c : DayCtx) : DayCtx :=
  let windowStart := 12
  let windowEnd := if c.day.weekday < 2 then 14 else 13
  let vets := DVM.all.filter (fun d =>
    (match (c.day.shifts d).clockOut with
     | some co => decide (14 < co)
     | none => false)
    && decide ((c.day.shifts d).dayType ≠ some DAY_TYPE.SURGERY))
  let key : DVM → Nat × Int := fun d =>
    ((if d = DVM.LP then 0 else 1), c.monthlyHours d)
  let order := List.insertionSort
    (fun a b => (key a).1 < (key b).1 ∨ ((key a).1 = (key b).1 ∧ (key a).2 ≤ (key b).2))
    vets
  { c with day := assignLunches windowStart windowEnd order 0 c.day }

/-- The context `_scheduleDay` starts from: the day at `idx` plus the scheduler's
counters and configuration. -/
def mkDayCtx (s : Scheduler) (idx : Nat) : DayCtx :=
  { sched := s.schedule, satSurgeon := s.satSurgeon,
    satSurgeonDayOff := s.satSurgeonDayOff, day := s.wdAt idx,
    weeklyHours := s.weeklyHours, monthlyHours := s.monthlyHours,
    saturdayRecord := s.saturdayRecord }

/-- `Scheduler._scheduleDay`, operating on the schedule entry at `idx`.  On
Wednesday and Friday the LO-fixed-schedule branch executes `return`, so the whole
day is left untouched. -/
def scheduleDay (s : Scheduler) (idx : Nat) : Except String Scheduler := do
  let day := s.wdAt idx
  if day.weekday = 2 ∨ day.weekday = 4 then pure s
  else do
    let lastThroughHour := if day.weekday < 2 then 19 else 17
    let c0 : DayCtx := mkDayCtx s idx
    let c1 ← phaseLO c0
    let c2 ← phaseJA c1
    let c3 ← phaseLP c2
    let c4 ← phaseSurgeon c3
    let c5 ← (do
      if day.weekday = 5 then do
        let (ca, _) ← phaseSat lastThroughHour c4 2
        pure ca
      else do
        let (ca, _) ← apptNeededShapes [(8, lastThroughHour), (8, 14)] c4 2
        let (cb, _) ← apptExtraShapes [(8, lastThroughHour), (8, 14)] ca 1
        pure cb)
    let c6 ← (do
      if c5.day.getNumApptsOnShift < 2 then
        fallbackAppts lastThroughHour (sortedByMonthly c5.monthlyHours) c5
      else pure c5)
    let c7 := staggerLunches c6
    pure { s with
             schedule := s.schedule.set idx c7.day
             weeklyHours := c7.weeklyHours
             monthlyHours := c7.monthlyHours
             saturdayRecord := c7.saturdayRecord }

/-- `Scheduler._processWeek` (by schedule indices). -/
def processWeek : List Nat → Scheduler → Except String Scheduler
  | [], s => pure s
  | idx :: rest, s => do
      let s' ← scheduleDay s idx
      processWeek rest s'

/-- `self.weeklyHours = {d.value: 0 for d in DVM}`. -/
def resetWeekly (s : Scheduler) : Scheduler := { s with weeklyHours := fun _ => 0 }

/-- The week-batching loop of `generateSchedule`: open days are collected, and each
batch of six is processed with a fresh weekly counter; a trailing partial batch is
processed the same way. -/
def greedyLoop (week : List Nat) : List Nat → Scheduler → Except String Scheduler
  | [], s => if week.isEmpty then pure s else processWeek week (resetWeekly s)
  | idx :: rest, s =>
      let week' := if (s.wdAt idx).isOpen then week ++ [idx] else week
      if week'.length = 6 then do
        let s' ← processWeek week' (resetWeekly s)
        greedyLoop [] rest s'
      else greedyLoop week' rest s

/-- The greedy pass of `Scheduler.generateSchedule` (counters initialized to zero,
then week-by-week processing). -/
def generateGreedy (s : Scheduler) : Except String Scheduler :=
  let s0 := { s with weeklyHours := fun _ => 0, monthlyHours := fun _ => 0 }
  greedyLoop [] (List.range s0.schedule.length) s0

/-! ### Objective evaluator, neighbors and hill-climbing
(scheduler.py `_evaluate`, `_neighbors`, `_hillClimb`, `_recalcHours`).
All score contributions are integers, so the Python float score is embedded as
`Int`. -/

/-- Hour-target term of `_evaluate`: squared deviation from per-DVM targets
(LP 125, EDS 0, default 170). -/
def hourDeviation (mh : DVM → Int) : Int :=
  (DVM.all.map (fun dv =>
    let tgt : Int := if dv = DVM.LP then 125 else if dv = DVM.EDS then 0 else 170
    (mh dv - tgt) ^ 2)).sum

/-- The dates appended to `satDates[dv]`: schedule entries with `weekday == 5` on
which `dv` is working, in schedule order. -/
def satDatesFor (sched : List WorkDay) (dv : DVM) : List Nat :=
  (sched.filter (fun d => decide (d.weekday = 5) && d.isWorking dv)).map (fun d => d.date)

/-- The adjacent-difference scan `for i in range(1, len(dates))` over a sorted date
list, counting gaps of exactly 7. -/
def adjSevens : List Nat → Nat
  | a :: b :: rest => (if b - a = 7 then 1 else 0) + adjSevens (b :: rest)
  | _ => 0

/-- Back-to-back-Saturday term of `_evaluate`: 100 per adjacent pair of sorted
worked-Saturday dates differing by exactly 7 (`dates.sort()` is ascending). -/
def satPenalty (sched : List WorkDay) : Int :=
  (DVM.all.map (fun dv =>
    (100 : Int) * adjSevens (List.insertionSort (· ≤ ·) (satDatesFor sched dv)))).sum

/-- Half-day term of `_evaluate`: 10 per placed shift shorter than the expected
full length for its weekday/duty combination. -/
def halfDayPenalty (sched : List WorkDay) : Int :=
  (sched.map (fun day =>
    (DVM.all.map (fun dv =>
      let sh := day.shifts dv
      match sh.clockIn, sh.clockOut with
      | some ci, some co =>
          let len : Int := (co : Int) - (ci : Int) + 1
          let full : Int :=
            if day.weekday = 4 ∧ sh.dayType = some DAY_TYPE.SURGERY then 8
            else if day.weekday < 2 then 12 else 10
          if len < full then (10 : Int) else 0
      | _, _ => 0)).sum)).sum

/-- `Scheduler._evaluate`. -/
def Scheduler.evaluate (s : Scheduler) : Int :=
  hourDeviation s.monthlyHours + satPenalty s.schedule + halfDayPenalty s.schedule

/-- The pairs `(DVM(i), DVM(j))` for `0 <= i < j < len(DVM)` in loop order. -/
def dvmPairs : List (DVM × DVM) :=
  [(.LO, .LP), (.LO, .EJS), (.LO, .JA), (.LO, .EDS), (.LP, .EJS),
   (.LP, .JA), (.LP, .EDS), (.EJS, .JA), (.EJS, .EDS), (.JA, .EDS)]

/-- The swap of `_neighbors`: exchange clockIn, clockOut, dayType and lunchStart
between two DVMs' shifts of one day (dayNum, vacation, standardOff stay). -/
def swapShifts (day : WorkDay) (a b : DVM) : WorkDay :=
  let sa := day.shifts a
  let sb := day.shifts b
  let sa' := { sa with
    clockIn := sb.clockIn
    clockOut := sb.clockOut
    dayType := sb.dayType
    lunchStart := sb.lunchStart }
  let sb' := { sb with
    clockIn := sa.clockIn
    clockOut := sa.clockOut
    dayType := sa.dayType
    lunchStart := sa.lunchStart }
  { day with shifts := (fun u => if u = a then sa' else if u = b then sb' else day.shifts u) }

/-- Neighbors generated from one schedule entry: one candidate per DVM pair with
both working, skipping closed days. -/
def Scheduler.neighborsAt (s : Scheduler) (idx : Nat) : List Scheduler :=
  let day := s.wdAt idx
  if ¬day.isOpen then []
  else dvmPairs.filterMap (fun p =>
    if day.isWorking p.1 ∧ day.isWorking p.2 then
      some { s with schedule := s.schedule.set idx (swapShifts day p.1 p.2) }
    else none)

/-- `Scheduler._neighbors` in generation order. -/
def Scheduler.neighbors (s : Scheduler) : List Scheduler :=
  (List.range s.schedule.length).flatMap s.neighborsAt

/-- `Scheduler._recalcHours`: both counters are zeroed once and every open day's
`workedHours` is added to both; the source walks open days in batches of six, but
with no per-batch reset the grouping does not affect the resulting totals, which
are the plain sums below. -/
def Scheduler.recalcHours (s : Scheduler) : Scheduler :=
  let total : DVM → Int := fun dv =>
    ((s.schedule.filter (fun d => d.isOpen)).map (fun d => (d.shifts dv).workedHours)).sum
  { s with weeklyHours := total, monthlyHours := total }

theorem hourDeviation_nonneg (mh : DVM → Int) : 0 ≤ hourDeviation mh := by
  apply List.sum_nonneg
  intro x hx
  simp only [hourDeviation, List.mem_map] at hx
  obtain ⟨dv, _, rfl⟩ := hx
  positivity

theorem satPenalty_nonneg (sched : List WorkDay) : 0 ≤ satPenalty sched := by
  apply List.sum_nonneg
  intro x hx
  simp only [satPenalty, List.mem_map] at hx
  obtain ⟨dv, _, rfl⟩ := hx
  positivity

theorem halfDayPenalty_nonneg (sched : List WorkDay) : 0 ≤ halfDayPenalty sched := by
  apply List.sum_nonneg
  intro x hx
  simp only [halfDayPenalty, List.mem_map] at hx
  obtain ⟨day, _, rfl⟩ := hx
  apply List.sum_nonneg
  intro y hy
  simp only [List.mem_map] at hy
  obtain ⟨dv, _, rfl⟩ := hy
  cases hci : (day.shifts dv).clockIn with
  | none => simp [hci]
  | some ci =>
    cases hco : (day.shifts dv).clockOut with
    | none => simp [hci, hco]
    | some co =>
      simp only [hci, hco]
      split_ifs <;> norm_num

/-- The evaluator never returns a negative score. -/
theorem Scheduler.evaluate_nonneg (s : Scheduler) : 0 ≤ s.evaluate := by
  have h1 := hourDeviation_nonneg s.monthlyHours
  have h2 := satPenalty_nonneg s.schedule
  have h3 := halfDayPenalty_nonneg s.schedule
  unfold Scheduler.evaluate
  omega

/-- One scan of `_hillClimb`'s inner `for` loop: recalc and score every neighbor in
order and return the first strictly improving one with its score. -/
def Scheduler.improve (s : Scheduler) (best : Int) : Option (Scheduler × Int) :=
  ((s.neighbors).map (fun nb =>
    let nb' := nb.recalcHours
    (nb', nb'.evaluate))).find? (fun p => decide (p.2 < best))

/-- A score produced by `improve` is an evaluator score, hence nonnegative. -/
theorem Scheduler.improve_nonneg (s : Scheduler) (best : Int) (nb : Scheduler) (sc : Int)
    (h : s.improve best = some (nb, sc)) : 0 ≤ sc := by
  have hmem := List.mem_of_find?_eq_some h
  simp only [List.mem_map] at hmem
  obtain ⟨nb0, _, heq⟩ := hmem
  have : sc = (nb0.recalcHours).evaluate := by
    have := congrArg Prod.snd heq
    simpa using this.symm
  rw [this]
  exact Scheduler.evaluate_nonneg _

/-- A score produced by `improve` is strictly below the incumbent best score. -/
theorem Scheduler.improve_lt (s : Scheduler) (best : Int) (nb : Scheduler) (sc : Int)
    (h : s.improve best = some (nb, sc)) : sc < best := by
  have hp := List.find?_some h
  simpa using hp

/-- The `while improved` loop of `_hillClimb`, with an explicit fuel so that the
recursion is structural (and hence computable by the kernel): returns the final
schedule and the list of scores of the accepted candidates, in acceptance order.
`hillClimbGo_fuel` below shows any fuel above the incumbent score is never
exhausted, so the fuel is a proof device, not a semantic bound. -/
def hillClimbGo : Nat → Scheduler → Int → Scheduler × List Int
  | 0, cur, _ => (cur, [])
  | fuel + 1, cur, best =>
      match cur.improve best with
      | none => (cur, [])
      | some (nb, sc) =>
          let r := hillClimbGo fuel nb sc
          (r.1, sc :: r.2)

/-- The loop of `_hillClimb` run with enough fuel to reach the fixpoint. -/
def hillClimbLoop (cur : Scheduler) (best : Int) : Scheduler × List Int :=
  hillClimbGo (best.toNat + 1) cur best

/-- Fuel insensitivity: any two fuels above the incumbent score give identical runs
(the loop reaches a no-improvement scan after at most `best.toNat` accepted moves). -/
theorem hillClimbGo_fuel :
    ∀ (fuel₁ : Nat) (cur : Scheduler) (best : Int) (fuel₂ : Nat),
      best.toNat < fuel₁ → best.toNat < fuel₂ →
      hillClimbGo fuel₁ cur best = hillClimbGo fuel₂ cur best := by
  intro fuel₁
  induction fuel₁ with
  | zero => intro cur best fuel₂ h1 h2; omega
  | succ f ih =>
    intro cur best fuel₂ h1 h2
    cases fuel₂ with
    | zero => omega
    | succ g =>
      simp only [hillClimbGo]
      cases h : cur.improve best with
      | none => rfl
      | some p =>
        obtain ⟨nb, sc⟩ := p
        have hnn := Scheduler.improve_nonneg cur best nb sc h
        have hlt := Scheduler.improve_lt cur best nb sc h
        have hrec : hillClimbGo f nb sc = hillClimbGo g nb sc :=
          ih nb sc g (by omega) (by omega)
        simp only [hrec]

/-- `Scheduler._hillClimb`: first-improvement hill-climbing from the current state
(whose stored counters give the initial best score). -/
def Scheduler.hillClimb (s : Scheduler) : Scheduler :=
  (hillClimbLoop s s.evaluate).1

/-- `Scheduler.generateSchedule`: greedy pass then hill-climbing. -/
def Scheduler.generateSchedule (s : Scheduler) : Except String Scheduler :=
  (generateGreedy s).map Scheduler.hillClimb

/-! ### Derived specification-side quantities -/

/-- Sum of one DVM's `workedHours` over all `WorkDay`s of a schedule. -/
def sumWorked (sched : List WorkDay) (v : DVM) : Int :=
  (sched.map (fun d => (d.shifts v).workedHours)).sum

/-! ### Claim theorems -/

/-- **C5.** For every shift with clock-in and clock-out set, `Shift.workedHours`
equals the raw span `clockOut - clockIn + 1` minus a lunch deduction of 2 hours when
the weekday is Monday (0) or Tuesday (1) and 1 hour otherwise, applied exactly when
clock-out > 13 — independent of whether a lunch-start was recorded; with
clock-out ≤ 13 no deduction is applied. -/
theorem C5_workedHours_lunch_deduction (s : Shift) (ci co : Nat)
    (hci : s.clockIn = some ci) (hco : s.clockOut = some co) :
    s.workedHours = ((co : Int) - (ci : Int) + 1)
      - (if 13 < co then (if s.dayNum = 0 ∨ s.dayNum = 1 then 2 else 1) else 0) := by
  unfold Shift.workedHours
  rw [hci, hco]
  by_cases h : 13 < co
  · by_cases hd : 1 < s.dayNum
    · have hne : ¬(s.dayNum = 0 ∨ s.dayNum = 1) := by omega
      simp [h, hd, hne]
    · have heq : s.dayNum = 0 ∨ s.dayNum = 1 := by omega
      simp [h, hd, heq]
  · simp [h]

/-- Witness for C5: a Friday 8-15 shift with a recorded lunch-start gets the 1-hour
deduction, 15 - 8 + 1 - 1 = 7 worked hours. -/
theorem C5_workedHours_lunch_deduction_witness :
    Shift.workedHours ⟨4, some 8, some 15, some 12, none, none, false⟩
      = ((15 : Int) - (8 : Int) + 1)
        - (if 13 < 15 then (if (4 : Nat) = 0 ∨ (4 : Nat) = 1 then 2 else 1) else 0) :=
  C5_workedHours_lunch_deduction ⟨4, some 8, some 15, some 12, none, none, false⟩ 8 15 rfl rfl

/-- Auxiliary for C10: `setVetSt` either succeeds or returns the day unchanged. -/
theorem WorkDay.setVetSt_cases (w : WorkDay) (dvm : DVM) (ci co : Nat)
    (dt : Option DAY_TYPE) (ls : Option Nat) :
    (w.setVetSt dvm ci co dt ls).1 = none ∨ (w.setVetSt dvm ci co dt ls).2 = w := by
  unfold WorkDay.setVetSt
  dsimp only
  split_ifs <;> simp

/-- **C10.** `WorkDay.setVet` is atomic on error: whenever the call raises (invalid
or inverted clock times, standard-off day, vacation overlap, or role-eligibility
violation — the non-`DAY_TYPE` duty check cannot fire in the typed embedding), the
`WorkDay` left behind is exactly the one passed in: all validation checks run before
any mutation. -/
theorem C10_setVet_atomic_on_error (w : WorkDay) (dvm : DVM) (ci co : Nat)
    (dt : Option DAY_TYPE) (ls : Option Nat)
    (h : (w.setVetSt dvm ci co dt ls).1.isSome = true) :
    (w.setVetSt dvm ci co dt ls).2 = w := by
  rcases WorkDay.setVetSt_cases w dvm ci co dt ls with hc | hc
  · rw [hc] at h; simp at h
  · exact hc

/-- Witness for C10: placing LP on a Monday (LP's standard day off) raises and
leaves the fresh Monday `WorkDay` untouched. -/
theorem C10_setVet_atomic_on_error_witness :
    ((mkWorkDay 0 3 2 2027 true "").setVetSt DVM.LP 8 17 (some DAY_TYPE.APPOINTMENT) none).2
      = mkWorkDay 0 3 2 2027 true "" :=
  C10_setVet_atomic_on_error (mkWorkDay 0 3 2 2027 true "") DVM.LP 8 17
    (some DAY_TYPE.APPOINTMENT) none (by decide)

/-- **C1** (refuting evidence).  September 2025 starts on a Monday (leading offset
0), so by the claim the WorkDay for day 8 sits at position 7 and the vacation request
(LO, day 8, 10-12) is applied to the WorkDay dated 8.  In the constructed schedule
position 7 holds the WorkDay dated 9 (the skipped Sunday Sep 7 shifts every later
day one position left), the vacation lands on the day-9 WorkDay, and the day-8
WorkDay (position 6) carries no vacation. -/
theorem C1_vacation_misrouted :
    (mkScheduler 9 2025 (fun _ => none) [[(8, 10, 12)]] DVM.LP none 0).toOption.map
      (fun s => (s.monthStartOffset,
        (s.wdAt 6).date, ((s.wdAt 6).shifts DVM.LO).vacation,
        (s.wdAt 7).date, ((s.wdAt 7).shifts DVM.LO).vacation))
      = some (0, 8, none, 9, some (10, 12)) := by decide

/-- The Monday context used as C2's failing input: a fresh open Monday with zeroed
counters (what the cascade sees for the first open Monday of a run). -/
def mondayCtx : DayCtx :=
  { sched := [], satSurgeon := DVM.LP, satSurgeonDayOff := 0,
    day := mkWorkDay 0 3 2 2027 true "", weeklyHours := fun _ => 0,
    monthlyHours := fun _ => 0, saturdayRecord := fun _ => [] }

/-- **C2** (refuting evidence).  On an open Monday, rule 1 (`phaseJA`) places JA on
a full-day 8-19 BOTH block and locks in 10 hours; rule 3 (`phaseSurgeon`) of the
same day then overwrites that placement with an 8-13 SURGERY block (its
`canAddToSchedule` check never consults `isWorking`) and adds another 6 hours, so
the finished day holds a different shift than the one rule 1 placed and the counters
hold contributions from both. -/
theorem C2_later_rule_overwrites_placement :
    ((phaseLO mondayCtx >>= phaseJA).toOption.map (fun c =>
        ((c.day.shifts DVM.JA).clockIn, (c.day.shifts DVM.JA).clockOut,
         (c.day.shifts DVM.JA).dayType, c.weeklyHours DVM.JA))
      = some (some 8, some 19, some DAY_TYPE.BOTH, 10))
    ∧ ((phaseLO mondayCtx >>= phaseJA >>= phaseLP >>= phaseSurgeon).toOption.map (fun c =>
        ((c.day.shifts DVM.JA).clockIn, (c.day.shifts DVM.JA).clockOut,
         (c.day.shifts DVM.JA).dayType, c.weeklyHours DVM.JA))
      = some (some 8, some 13, some DAY_TYPE.SURGERY, 16)) := by decide

/-- **C4** (refuting evidence).  February 2027 with every day closed except Monday
Feb 1: `generateSchedule` (greedy plus hill-climbing, which accepts no move here)
finishes with `monthlyHours[JA] = 16` while the sum of JA's `workedHours` over the
whole schedule is 6 — rule 1's 10 locked-in hours survive in the counter although
rule 3 overwrote the shift itself. -/
theorem C4_monthly_tally_mismatch :
    ((mkScheduler 2 2027 (fun d => if d = 1 then none else some "closed") [] DVM.LP none 0
        >>= Scheduler.generateSchedule).toOption.map
      (fun g => (g.monthlyHours DVM.JA, sumWorked g.schedule DVM.JA)))
      = some (16, 6) := by decide

/-- **C6** (refuting evidence).  February 2027 with only Friday Feb 5 open: the
greedy pass leaves every shift of that Friday empty — `_scheduleDay` hits the
`return` in the "LO standard off" branch for weekday 4, so the short no-lunch
surgery rule never places anyone.  Moreover the 8-15 no-lunch surgery shift that
rule would create reports 7 worked hours (the `clockOut > 13` deduction applies
even with no lunch-start), not 8. -/
theorem C6_friday_nolunch_surgery_never_placed :
    (((mkScheduler 2 2027 (fun d => if d = 5 then none else some "closed") [] DVM.LP none 0
        >>= generateGreedy).toOption.map (fun g =>
      ((g.wdAt 4).weekday, (g.wdAt 4).isOpen,
       DVM.all.map (fun v => ((g.wdAt 4).shifts v).clockIn))))
      = some (4, true, [none, none, none, none, none]))
    ∧ Shift.workedHours ⟨4, some 8, some 15, none, some DAY_TYPE.SURGERY, none, false⟩ = 7 := by
  decide

/-- **C7** (refuting evidence).  September 2025, every day open, no vacations,
rotation surgeon EJS with Saturday-off ordinal 2.  The in-month Saturdays are
Sep 6, 13, 20, 27, so Sep 13 (schedule position 11) is the month's 2nd Saturday;
yet the greedy pass places EJS there in the 8-13 surgery block (the ordinal scan
counts the next-month padding Saturday Oct 4, computing ordinal 3), and the day
ends with 3 appointment placements, not 2. -/
theorem C7_second_saturday_gets_surgeon :
    ((mkScheduler 9 2025 (fun _ => none) [] DVM.EJS none 2 >>= generateGreedy).toOption.map
      (fun g =>
        ((g.schedule.filter (fun d => decide (d.month = 9) && decide (d.weekday = 5))).map
          (fun d => d.date),
         (g.wdAt 11).date, (g.wdAt 11).month, (g.wdAt 11).weekday,
         ((g.wdAt 11).shifts DVM.EJS).clockIn, ((g.wdAt 11).shifts DVM.EJS).dayType,
         (g.wdAt 11).getNumApptsOnShift)))
      = some ([6, 13, 20, 27], 13, 9, 5, some 8, some DAY_TYPE.SURGERY, 3) := by decide

/-- Invariant of the fueled hill-climbing loop: with fuel above the incumbent score,
the accepted scores form a strictly decreasing chain below the incumbent, there are
at most `best.toNat` accepted moves, and the final state's full neighbor scan finds
no further improvement. -/
theorem hillClimbGo_spec (fuel : Nat) :
    ∀ (cur : Scheduler) (best : Int), best.toNat < fuel →
      List.Chain' (fun a b => b < a) (best :: (hillClimbGo fuel cur best).2) ∧
      (hillClimbGo fuel cur best).2.length ≤ best.toNat ∧
      (hillClimbGo fuel cur best).1.improve
        ((best :: (hillClimbGo fuel cur best).2).getLast (List.cons_ne_nil _ _)) = none := by
  induction fuel with
  | zero => intro cur best h; omega
  | succ f ih =>
    intro cur best h
    cases himp : cur.improve best with
    | none =>
      refine ⟨?_, ?_, ?_⟩
      · simp [hillClimbGo, himp]
      · simp [hillClimbGo, himp]
      · simp only [hillClimbGo, himp, List.getLast_singleton]
    | some p =>
      obtain ⟨nb, sc⟩ := p
      have hnn := Scheduler.improve_nonneg cur best nb sc himp
      have hlt := Scheduler.improve_lt cur best nb sc himp
      obtain ⟨hchain, hlen, hfix⟩ := ih nb sc (by omega)
      refine ⟨?_, ?_, ?_⟩
      · simp only [hillClimbGo, himp]
        exact List.chain'_cons.mpr ⟨hlt, hchain⟩
      · simp only [hillClimbGo, himp, List.length_cons]
        omega
      · simp only [hillClimbGo, himp]
        rw [List.getLast_cons (List.cons_ne_nil _ _)]
        exact hfix

/-- **C9.** Running `_hillClimb` from any scheduler state: the scores of the
accepted candidates, prefixed by the initial best score, form a strictly decreasing
sequence; the loop performs at most `evaluate.toNat` accepted moves (finite
termination); and on termination a full scan over all neighbors of the adopted
schedule finds no candidate whose recomputed score beats the final best score
(local-optimum guarantee). -/
theorem C9_hillClimb_decreasing_and_terminates (s : Scheduler) :
    List.Chain' (fun a b => b < a) (s.evaluate :: (hillClimbLoop s s.evaluate).2) ∧
    (hillClimbLoop s s.evaluate).2.length ≤ s.evaluate.toNat ∧
    ∀ nb ∈ (hillClimbLoop s s.evaluate).1.neighbors,
      ¬((nb.recalcHours).evaluate <
        (s.evaluate :: (hillClimbLoop s s.evaluate).2).getLast (List.cons_ne_nil _ _)) := by
  obtain ⟨hchain, hlen, hfix⟩ :=
    hillClimbGo_spec (s.evaluate.toNat + 1) s s.evaluate (Nat.lt_succ_self _)
  refine ⟨hchain, hlen, ?_⟩
  intro nb hnb hsc
  have hmem : ((nb.recalcHours), (nb.recalcHours).evaluate) ∈
      ((hillClimbLoop s s.evaluate).1.neighbors.map (fun nb =>
        let nb' := nb.recalcHours
        (nb', nb'.evaluate))) := List.mem_map_of_mem _ hnb
  have := List.find?_eq_none.mp hfix _ hmem
  simp only [decide_eq_true_eq] at this
  exact this hsc

/-! ### C8: the back-to-back-Saturday penalty versus calendar distance -/

/-- The Saturday entries of a schedule on which a DVM is working (the days whose
dates `_evaluate` collects into `satDates[dv]`). -/
def workedSatDays (sched : List WorkDay) (dv : DVM) : List WorkDay :=
  sched.filter (fun d => decide (d.weekday = 5) && d.isWorking dv)

/-- 1-based absolute day number of a WorkDay's calendar date (days elapsed since
Dec 31 of year 0, proleptic Gregorian) — two days are n calendar days apart exactly
when their ordinals differ by n. -/
def WorkDay.ordinal (d : WorkDay) : Nat := ordinalDay d.year d.month d.date

/-- Two WorkDays exactly 7 calendar days apart. -/
def calSevenApart (a b : WorkDay) : Bool :=
  decide (((a.ordinal : Int) - (b.ordinal : Int) = 7) ∨
          ((b.ordinal : Int) - (a.ordinal : Int) = 7))

/-- Two day-of-month values differing by exactly 7. -/
def dateSevenApart (a b : Nat) : Bool :=
  decide ((((a : Int)) - ((b : Int)) = 7) ∨ (((b : Int)) - ((a : Int)) = 7))

/-- Number of (position-ordered) pairs of list entries satisfying `p`. -/
def countPairsP (p : α → α → Bool) : List α → Nat
  | [] => 0
  | a :: rest => rest.countP (p a) + countPairsP p rest

/-- The number of pairs of Saturdays a worker works that are exactly 7 calendar
days apart (the quantity the claim says the evaluator penalizes once each). -/
def backToBackPairs (sched : List WorkDay) (dv : DVM) : Nat :=
  countPairsP calSevenApart (workedSatDays sched dv)

/-- Pairs of day-of-month values exactly 7 apart. -/
def pairs7 : List Nat → Nat := countPairsP dateSevenApart

theorem countPairsP_perm (p : α → α → Bool) (hsymm : ∀ a b, p a b = p b a)
    {l l' : List α} (h : l.Perm l') : countPairsP p l = countPairsP p l' := by
  induction h with
  | nil => rfl
  | cons a h ih => simp only [countPairsP, ih, h.countP_eq]
  | swap x y l =>
      simp only [countPairsP, List.countP_cons]
      rw [hsymm y x]
      omega
  | trans h1 h2 ih1 ih2 => exact ih1.trans ih2

theorem countPairsP_map (f : α → β) (p : α → α → Bool) (q : β → β → Bool) :
    ∀ (l : List α), (∀ a ∈ l, ∀ b ∈ l, p a b = q (f a) (f b)) →
      countPairsP p l = countPairsP q (l.map f)
  | [], _ => rfl
  | a :: rest, h => by
      simp only [countPairsP, List.map_cons]
      have h1 : rest.countP (p a) = (rest.map f).countP (q (f a)) := by
        rw [List.countP_map]
        apply List.countP_congr
        intro b hb
        have := h a (List.mem_cons_self a rest) b (List.mem_cons_of_mem a hb)
        simp [Function.comp, this]
      have h2 := countPairsP_map f p q rest
        (fun x hx z hz => h x (List.mem_cons_of_mem a hx) z (List.mem_cons_of_mem a hz))
      omega

/-- On a strictly increasing, mod-7-congruent date list, the adjacent-gap scan of
`_evaluate` counts exactly the pairs 7 apart. -/
theorem adjSevens_eq_pairs7 :
    ∀ (l : List Nat), l.Pairwise (fun x y => x < y ∧ x % 7 = y % 7) →
      adjSevens l = pairs7 l
  | [], _ => rfl
  | [a], _ => rfl
  | a :: b :: t, h => by
      obtain ⟨ha, hrest⟩ := List.pairwise_cons.mp h
      have hb := ha b (List.mem_cons_self _ _)
      have hb7 : a + 7 ≤ b := by
        obtain ⟨hlt, hmod⟩ := hb
        omega
      have htail : adjSevens (b :: t) = pairs7 (b :: t) :=
        adjSevens_eq_pairs7 (b :: t) hrest
      have hx : ∀ x ∈ b :: t, dateSevenApart a x = true ↔ decide (x = a + 7) = true := by
        intro x hxm
        obtain ⟨hlt, _⟩ := ha x hxm
        unfold dateSevenApart
        simp only [decide_eq_true_eq]
        omega
      have hcount : (b :: t).countP (dateSevenApart a) = if b - a = 7 then 1 else 0 := by
        rw [List.countP_congr hx]
        rw [List.countP_cons]
        have ht0 : t.countP (fun x => decide (x = a + 7)) = 0 := by
          apply List.countP_eq_zero.mpr
          intro x hxm
          have hbx := (List.pairwise_cons.mp hrest).1 x hxm
          simp only [decide_eq_true_eq]
          omega
        rw [ht0]
        simp only [decide_eq_true_eq]
        split_ifs <;> omega
      show (if b - a = 7 then 1 else 0) + adjSevens (b :: t)
          = (b :: t).countP (dateSevenApart a) + pairs7 (b :: t)
      rw [hcount, htail]

/-- Ordinal differences inside one calendar month are date differences. -/
theorem ordinalDay_sub_same_month (y m a b : Nat) :
    (ordinalDay y m a : Int) - (ordinalDay y m b : Int) = (a : Int) - (b : Int) := by
  unfold ordinalDay
  push_cast
  ring

theorem dateSevenApart_symm (a b : Nat) : dateSevenApart a b = dateSevenApart b a := by
  unfold dateSevenApart
  rw [decide_eq_decide]
  tauto

/-- Concrete schedule refuting C8 as stated: Saturday Feb 8 2025 and Saturday
Mar 1 2025 (the kind of next-month padding Saturday the constructor appends), both
worked by LO.  They are 21 calendar days apart, but their days-of-month differ
by 7. -/
def c8BadSched : List WorkDay :=
  [((mkWorkDay 5 8 2 2025 true "").setVet DVM.LO 8 17
      (some DAY_TYPE.APPOINTMENT) none).toOption.getD (mkWorkDay 5 8 2 2025 true ""),
   ((mkWorkDay 5 1 3 2025 true "").setVet DVM.LO 8 17
      (some DAY_TYPE.APPOINTMENT) none).toOption.getD (mkWorkDay 5 1 3 2025 true "")]

/-- **C8** (counterexample).  On `c8BadSched` the evaluator's back-to-back term adds
100 (the sorted dates 1 and 8 differ by 7) although LO's two worked Saturdays are 21
calendar days apart, so no pair of worked Saturdays is 7 calendar days apart and the
claimed equality fails. -/
theorem C8_satPenalty_counterexample :
    satPenalty c8BadSched = 100 ∧
    (DVM.all.map (fun dv => (backToBackPairs c8BadSched dv : Int))).sum = 0 ∧
    ¬(satPenalty c8BadSched
        = 100 * (DVM.all.map (fun dv => (backToBackPairs c8BadSched dv : Int))).sum) := by
  refine ⟨by decide, by decide, ?_⟩
  intro h
  rw [show ((DVM.all.map (fun dv => (backToBackPairs c8BadSched dv : Int))).sum = 0)
    from by decide] at h
  simp at h
  exact absurd h (by decide)

/-- **C8** (amended, proved).  Provided every worked Saturday of every worker lies
in calendar month `(y, m)` — i.e. no next-month padding Saturday is worked — and
each worker's worked-Saturday dates are pairwise distinct and congruent mod 7 (as
genuine Saturdays of a single month are), the evaluator's back-to-back-Saturday
term equals 100 times the number of (worker, pair-of-worked-Saturdays-exactly-7-
calendar-days-apart) combinations: the penalty is added exactly once per such pair
and never for any other pair. -/
theorem C8_satPenalty_amended (sched : List WorkDay) (y m : Nat)
    (hym : ∀ dv : DVM, ∀ d ∈ workedSatDays sched dv, d.year = y ∧ d.month = m)
    (hgood : ∀ dv : DVM, (satDatesFor sched dv).Pairwise
      (fun a b => a ≠ b ∧ a % 7 = b % 7)) :
    satPenalty sched
      = 100 * (DVM.all.map (fun dv => (backToBackPairs sched dv : Int))).sum := by
  have key : ∀ dv : DVM,
      adjSevens (List.insertionSort (· ≤ ·) (satDatesFor sched dv))
        = backToBackPairs sched dv := by
    intro dv
    have hperm : (List.insertionSort (· ≤ ·) (satDatesFor sched dv)).Perm
        (satDatesFor sched dv) := List.perm_insertionSort _ _
    have hsorted : (List.insertionSort (· ≤ ·) (satDatesFor sched dv)).Sorted (· ≤ ·) :=
      List.sorted_insertionSort _ _
    have hgood' : (List.insertionSort (· ≤ ·) (satDatesFor sched dv)).Pairwise
        (fun a b => a ≠ b ∧ a % 7 = b % 7) := by
      refine (List.Perm.pairwise_iff ?_ hperm).mpr (hgood dv)
      intro a b hab
      exact ⟨hab.1.symm, hab.2.symm⟩
    have hstrict : (List.insertionSort (· ≤ ·) (satDatesFor sched dv)).Pairwise
        (fun a b => a < b ∧ a % 7 = b % 7) := by
      have hand := List.Pairwise.and hsorted hgood'
      refine hand.imp ?_
      intro a b hab
      exact ⟨lt_of_le_of_ne hab.1 hab.2.1, hab.2.2⟩
    have h1 := adjSevens_eq_pairs7 _ hstrict
    have h2 : pairs7 (List.insertionSort (· ≤ ·) (satDatesFor sched dv))
        = pairs7 (satDatesFor sched dv) :=
      countPairsP_perm dateSevenApart dateSevenApart_symm hperm
    have h3 : countPairsP calSevenApart (workedSatDays sched dv)
        = countPairsP dateSevenApart ((workedSatDays sched dv).map (fun d => d.date)) := by
      apply countPairsP_map
      intro a ha b hb
      obtain ⟨hay, ham⟩ := hym dv a ha
      obtain ⟨hby, hbm⟩ := hym dv b hb
      unfold calSevenApart dateSevenApart WorkDay.ordinal
      rw [decide_eq_decide, hay, ham, hby, hbm,
        ordinalDay_sub_same_month, ordinalDay_sub_same_month]
    rw [h1, h2]
    exact h3.symm
  unfold satPenalty
  simp only [key]
  rw [List.sum_map_mul_left]

/-- Concrete schedule witnessing the amended C8: Saturdays Feb 8 and Feb 15 2025,
both worked by LO — genuinely back-to-back (7 calendar days apart). -/
def c8GoodSched : List WorkDay :=
  [((mkWorkDay 5 8 2 2025 true "").setVet DVM.LO 8 17
      (some DAY_TYPE.APPOINTMENT) none).toOption.getD (mkWorkDay 5 8 2 2025 true ""),
   ((mkWorkDay 5 15 2 2025 true "").setVet DVM.LO 8 17
      (some DAY_TYPE.APPOINTMENT) none).toOption.getD (mkWorkDay 5 15 2 2025 true "")]

/-- Witness for the amended C8 at `c8GoodSched` (one genuine back-to-back pair,
penalty 100). -/
theorem C8_satPenalty_amended_witness :
    satPenalty c8GoodSched
      = 100 * (DVM.all.map (fun dv => (backToBackPairs c8GoodSched dv : Int))).sum :=
  C8_satPenalty_amended c8GoodSched 2025 2 (by decide) (by decide)

/-! ### C3: the weekly 40-hour cap

Every placement the engine ever makes starts at 8 and ends at 19 (Mon/Tue full
day), 17 (Wed-Sat full day), 14 or 13, and `_scheduleDay` returns untouched on
weekdays 2 and 4; hill-climbing only exchanges shift data between two workers of
the same day.  So each worker-day carries at most 10 worked hours on Mon/Tue,
9 on Thu/Sat and 0 on Wed/Fri, and a Monday-Saturday week sums to at most
10+10+0+9+0+9 = 38 ≤ 40.  The invariant `GoodDay` captures the per-day bound and
is carried through the whole pipeline. -/

/-- Worst-case single-shift worked hours the engine can leave on a day of the given
weekday. -/
def dayHourBound (w : Nat) : Int :=
  if w = 2 ∨ w = 4 then 0 else if w ≤ 1 then 10 else 9

/-- `workedHours` of the shift a `setVet` call with the given weekday and clock
times produces. -/
def placedHours (w ci co : Nat) : Int :=
  Shift.workedHours { dayNum := w, clockIn := some ci, clockOut := some co }

/-- The per-day invariant: a valid weekday, every shift's `dayNum` agreeing with
it, and every shift's worked hours within the weekday's bound. -/
def GoodDay (d : WorkDay) : Prop :=
  d.weekday ≤ 5 ∧ ∀ v : DVM, (d.shifts v).dayNum = d.weekday ∧
    (d.shifts v).workedHours ≤ dayHourBound d.weekday

/-- Schedule-wide invariant. -/
def GoodSched (sched : List WorkDay) : Prop := ∀ d ∈ sched, GoodDay d

instance (d : WorkDay) : Decidable (GoodDay d) := by
  unfold GoodDay; infer_instance

/-- `workedHours` only reads `clockIn`, `clockOut` and `dayNum`. -/
theorem Shift.workedHours_fields (s s' : Shift) (h1 : s'.clockIn = s.clockIn)
    (h2 : s'.clockOut = s.clockOut) (h3 : s'.dayNum = s.dayNum) :
    s'.workedHours = s.workedHours := by
  unfold Shift.workedHours
  rw [h1, h2, h3]

theorem dayHourBound_nonneg (w : Nat) : 0 ≤ dayHourBound w := by
  unfold dayHourBound
  split_ifs <;> omega

/-- Fresh `WorkDay`s satisfy the invariant. -/
theorem goodDay_mkWorkDay (weekday date month year : Nat) (o : Bool) (r : String)
    (h : weekday ≤ 5) : GoodDay (mkWorkDay weekday date month year o r) := by
  refine ⟨h, fun v => ⟨rfl, ?_⟩⟩
  have : (( mkWorkDay weekday date month year o r).shifts v).workedHours = 0 := rfl
  rw [this]
  exact dayHourBound_nonneg _

/-- The engine's clock times stay within the bound on the weekdays the cascade
actually touches. -/
theorem placedHours_le (w ci co : Nat) (h5 : w ≤ 5) (h2 : w ≠ 2) (h4 : w ≠ 4)
    (hci : ci = 8) (hco : co = (if w < 2 then 19 else 17) ∨ co = 14 ∨ co = 13) :
    placedHours w ci co ≤ dayHourBound w := by
  subst hci
  interval_cases w <;>
    first
      | exact absurd rfl h2
      | exact absurd rfl h4
      | (rcases hco with h | h | h <;> subst h <;> decide)

/-- A successful `setVet` produces exactly the mutation block's result. -/
theorem WorkDay.setVet_ok (w w' : WorkDay) (dvm : DVM) (ci co : Nat)
    (dt : Option DAY_TYPE) (ls : Option Nat)
    (h : w.setVet dvm ci co dt ls = .ok w') :
    w' = w.setVetWrite dvm ci co dt ls := by
  unfold WorkDay.setVet WorkDay.setVetSt at h
  dsimp only at h
  split_ifs at h <;> simp_all

/-- `setVetWrite` keeps the weekday and is invariant-preserving when the placed
hours respect the bound. -/
theorem goodDay_setVetWrite (d : WorkDay) (v : DVM) (ci co : Nat)
    (dt : Option DAY_TYPE) (ls : Option Nat) (hg : GoodDay d)
    (hb : placedHours d.weekday ci co ≤ dayHourBound d.weekday) :
    GoodDay (d.setVetWrite v ci co dt ls)
      ∧ (d.setVetWrite v ci co dt ls).weekday = d.weekday := by
  obtain ⟨h5, hsh⟩ := hg
  refine ⟨⟨h5, ?_⟩, rfl⟩
  intro u
  show ((if u = v then _ else d.shifts u).dayNum = d.weekday ∧
    (if u = v then _ else d.shifts u).workedHours ≤ dayHourBound d.weekday)
  by_cases hu : u = v
  · subst hu
    simp only [if_pos rfl]
    refine ⟨(hsh u).1, le_trans (le_of_eq ?_) hb⟩
    unfold placedHours
    apply Shift.workedHours_fields <;> simp [(hsh u).1]
  · simp only [if_neg hu]
    exact hsh u

theorem exceptBind_ok {α β : Type} (a : α) (f : α → Except String β) :
    (Except.ok a >>= f : Except String β) = f a := rfl

theorem exceptBind_error {α β : Type} (e : String) (f : α → Except String β) :
    ((Except.error e : Except String α) >>= f) = .error e := rfl

theorem exceptPure {α : Type} (a : α) : (pure a : Except String α) = .ok a := rfl

/-- Invariant carried through one `_scheduleDay` call: the day is good and its
weekday is the fixed `w`. -/
def DayInv (w : Nat) (c : DayCtx) : Prop := GoodDay c.day ∧ c.day.weekday = w

theorem placeAndCount_inv (c c' : DayCtx) (v : DVM) (ci co : Nat) (dt : DAY_TYPE)
    (w : Nat) (h : c.placeAndCount v ci co dt = .ok c') (hi : DayInv w c)
    (hb : placedHours w ci co ≤ dayHourBound w) : DayInv w c' := by
  obtain ⟨hg, hw⟩ := hi
  unfold DayCtx.placeAndCount at h
  cases hsv : c.day.setVet v ci co (some dt) none with
  | error e =>
      rw [hsv, exceptBind_error] at h
      exact absurd h (by simp)
  | ok day' =>
      rw [hsv, exceptBind_ok] at h
      have hd : day' = c.day.setVetWrite v ci co (some dt) none :=
        WorkDay.setVet_ok _ _ _ _ _ _ _ hsv
      have hgw := goodDay_setVetWrite c.day v ci co (some dt) none hg (by rw [hw]; exact hb)
      simp only [exceptPure, Except.ok.injEq] at h
      rw [← h]
      exact ⟨by rw [show (DayCtx.bump { c with day := day' } v
          ((day'.shifts v).workedHours)).day = day' from rfl, hd]; exact hgw.1,
        by rw [show (DayCtx.bump { c with day := day' } v
          ((day'.shifts v).workedHours)).day = day' from rfl, hd, hgw.2]; exact hw⟩

theorem tryPlace_inv (c c' : DayCtx) (v : DVM) (ci co : Nat) (dt : DAY_TYPE)
    (w : Nat) (h : c.tryPlace v ci co dt = .ok c') (hi : DayInv w c)
    (hb : placedHours w ci co ≤ dayHourBound w) : DayInv w c' := by
  unfold DayCtx.tryPlace at h
  cases hca : c.canAddToSchedule v ci co with
  | error e =>
      rw [hca, exceptBind_error] at h
      exact absurd h (by simp)
  | ok b =>
      rw [hca, exceptBind_ok] at h
      cases b with
      | true => exact placeAndCount_inv c c' v ci co dt w (by simpa using h) hi hb
      | false =>
          simp at h
          rw [exceptPure] at h
          injection h with h
          rw [← h]
          exact hi

/-- `recordSat` does not touch the day. -/
theorem recordSat_inv (c : DayCtx) (v : DVM) (o : Nat) (w : Nat)
    (hi : DayInv w c) : DayInv w (c.recordSat v o) := hi

theorem apptNeededInner_inv (w start stop : Nat)
    (hb : placedHours w start stop ≤ dayHourBound w) :
    ∀ (ds : List DVM) (c : DayCtx) (needed : Int) (r : DayCtx × Int),
      apptNeededInner start stop ds c needed = .ok r → DayInv w c → DayInv w r.1
  | [], c, needed, r, h, hi => by
      simp only [apptNeededInner, exceptPure, Except.ok.injEq] at h
      rw [← h]
      exact hi
  | d :: rest, c, needed, r, h, hi => by
      simp only [apptNeededInner] at h
      split at h
      · rw [exceptPure] at h
        injection h with h
        rw [← h]
        exact hi
      · split at h
        · exact apptNeededInner_inv w start stop hb rest c needed r h hi
        · cases hca : c.canAddToSchedule d start stop with
          | error e =>
              rw [hca, exceptBind_error] at h
              exact absurd h (by simp)
          | ok b =>
              rw [hca, exceptBind_ok] at h
              cases b with
              | true =>
                  rw [if_pos rfl] at h
                  cases hpc : c.placeAndCount d start stop DAY_TYPE.APPOINTMENT with
                  | error e =>
                      rw [hpc, exceptBind_error] at h
                      exact absurd h (by simp)
                  | ok c1 =>
                      rw [hpc, exceptBind_ok] at h
                      exact apptNeededInner_inv w start stop hb rest c1 (needed - 1) r h
                        (placeAndCount_inv c c1 d start stop _ w hpc hi hb)
              | false =>
                  rw [if_neg (by simp)] at h
                  exact apptNeededInner_inv w start stop hb rest c needed r h hi

theorem apptExtraInner_inv (w start stop : Nat)
    (hb : placedHours w start stop ≤ dayHourBound w) :
    ∀ (ds : List DVM) (c : DayCtx) (extra : Int) (r : DayCtx × Int),
      apptExtraInner start stop ds c extra = .ok r → DayInv w c → DayInv w r.1
  | [], c, extra, r, h, hi => by
      simp only [apptExtraInner, exceptPure, Except.ok.injEq] at h
      rw [← h]
      exact hi
  | d :: rest, c, extra, r, h, hi => by
      simp only [apptExtraInner] at h
      split at h
      · exact apptExtraInner_inv w start stop hb rest c extra r h hi
      · cases hca : c.canAddToSchedule d start stop with
        | error e =>
            rw [hca, exceptBind_error] at h
            exact absurd h (by simp)
        | ok b =>
            rw [hca, exceptBind_ok] at h
            cases b with
            | true =>
                rw [if_pos rfl] at h
                cases hpc : c.placeAndCount d start stop DAY_TYPE.APPOINTMENT with
                | error e =>
                    rw [hpc, exceptBind_error] at h
                    exact absurd h (by simp)
                | ok c1 =>
                    rw [hpc, exceptBind_ok] at h
                    exact apptExtraInner_inv w start stop hb rest c1 (extra - 1) r h
                      (placeAndCount_inv c c1 d start stop _ w hpc hi hb)
            | false =>
                rw [if_neg (by simp)] at h
                exact apptExtraInner_inv w start stop hb rest c extra r h hi

theorem satFillInner_inv (w ordinal start stop : Nat)
    (hb : placedHours w start stop ≤ dayHourBound w) :
    ∀ (ds : List DVM) (c : DayCtx) (needed : Int) (r : DayCtx × Int),
      satFillInner ordinal start stop ds c needed = .ok r → DayInv w c → DayInv w r.1
  | [], c, needed, r, h, hi => by
      simp only [satFillInner, exceptPure, Except.ok.injEq] at h
      rw [← h]
      exact hi
  | d :: rest, c, needed, r, h, hi => by
      simp only [satFillInner] at h
      split at h
      · exact satFillInner_inv w ordinal start stop hb rest c needed r h hi
      · cases hca : c.canAddToSchedule d start stop with
        | error e =>
            rw [hca, exceptBind_error] at h
            exact absurd h (by simp)
        | ok b =>
            rw [hca, exceptBind_ok] at h
            cases b with
            | true =>
                rw [if_pos rfl] at h
                cases hpc : c.placeAndCount d start stop DAY_TYPE.APPOINTMENT with
                | error e =>
                    rw [hpc, exceptBind_error] at h
                    exact absurd h (by simp)
                | ok c1 =>
                    rw [hpc, exceptBind_ok] at h
                    exact satFillInner_inv w ordinal start stop hb rest
                      (c1.recordSat d ordinal) (needed - 1) r h
                      (recordSat_inv c1 d ordinal w
                        (placeAndCount_inv c c1 d start stop _ w hpc hi hb))
            | false =>
                rw [if_neg (by simp)] at h
                exact satFillInner_inv w ordinal start stop hb rest c needed r h hi

theorem fallbackAppts_inv (w lastThroughHour : Nat)
    (hb : placedHours w 8 lastThroughHour ≤ dayHourBound w) :
    ∀ (ds : List DVM) (c : DayCtx) (c' : DayCtx),
      fallbackAppts lastThroughHour ds c = .ok c' → DayInv w c → DayInv w c'
  | [], c, c', h, hi => by
      simp only [fallbackAppts, exceptPure, Except.ok.injEq] at h
      rw [← h]
      exact hi
  | d :: rest, c, c', h, hi => by
      simp only [fallbackAppts] at h
      split at h
      · rw [exceptPure] at h
        injection h with h
        rw [← h]
        exact hi
      · split at h
        · cases hca : c.canAddToSchedule d 8 lastThroughHour with
          | error e =>
              rw [hca, exceptBind_error] at h
              exact absurd h (by simp)
          | ok b =>
              rw [hca, exceptBind_ok] at h
              cases b with
              | true =>
                  rw [if_pos rfl] at h
                  cases hpc : c.placeAndCount d 8 lastThroughHour DAY_TYPE.APPOINTMENT with
                  | error e =>
                      rw [hpc, exceptBind_error] at h
                      exact absurd h (by simp)
                  | ok c1 =>
                      rw [hpc, exceptBind_ok] at h
                      exact fallbackAppts_inv w lastThroughHour hb rest c1 c' h
                        (placeAndCount_inv c c1 d 8 lastThroughHour _ w hpc hi hb)
              | false =>
                  rw [if_neg (by simp)] at h
                  exact fallbackAppts_inv w lastThroughHour hb rest c c' h hi
        · exact fallbackAppts_inv w lastThroughHour hb rest c c' h hi

theorem apptNeededShapes_inv (w : Nat) :
    ∀ (shapes : List (Nat × Nat)) (c : DayCtx) (needed : Int) (r : DayCtx × Int),
      (∀ p ∈ shapes, placedHours w p.1 p.2 ≤ dayHourBound w) →
      apptNeededShapes shapes c needed = .ok r → DayInv w c → DayInv w r.1
  | [], c, needed, r, _, h, hi => by
      simp only [apptNeededShapes, exceptPure, Except.ok.injEq] at h
      rw [← h]
      exact hi
  | (start, stop) :: rest, c, needed, r, hbs, h, hi => by
      simp only [apptNeededShapes] at h
      cases hin : apptNeededInner start stop (sortedByMonthly c.monthlyHours) c needed with
      | error e =>
          rw [hin, exceptBind_error] at h
          exact absurd h (by simp)
      | ok p =>
          obtain ⟨c1, n1⟩ := p
          rw [hin, exceptBind_ok] at h
          have hi1 : DayInv w c1 := apptNeededInner_inv w start stop
            (hbs (start, stop) (List.mem_cons_self _ _)) _ c needed (c1, n1) hin hi
          split at h
          · rw [exceptPure] at h
            injection h with h
            rw [← h]
            exact hi1
          · exact apptNeededShapes_inv w rest c1 n1 r
              (fun p hp => hbs p (List.mem_cons_of_mem _ hp)) h hi1

theorem apptExtraShapes_inv (w : Nat) :
    ∀ (shapes : List (Nat × Nat)) (c : DayCtx) (extra : Int) (r : DayCtx × Int),
      (∀ p ∈ shapes, placedHours w p.1 p.2 ≤ dayHourBound w) →
      apptExtraShapes shapes c extra = .ok r → DayInv w c → DayInv w r.1
  | [], c, extra, r, _, h, hi => by
      simp only [apptExtraShapes, exceptPure, Except.ok.injEq] at h
      rw [← h]
      exact hi
  | (start, stop) :: rest, c, extra, r, hbs, h, hi => by
      simp only [apptExtraShapes] at h
      split at h
      · rw [exceptPure] at h
        injection h with h
        rw [← h]
        exact hi
      · cases hin : apptExtraInner start stop (sortedByMonthly c.monthlyHours) c extra with
        | error e =>
            rw [hin, exceptBind_error] at h
            exact absurd h (by simp)
        | ok p =>
            obtain ⟨c1, n1⟩ := p
            rw [hin, exceptBind_ok] at h
            have hi1 : DayInv w c1 := apptExtraInner_inv w start stop
              (hbs (start, stop) (List.mem_cons_self _ _)) _ c extra (c1, n1) hin hi
            split at h
            · rw [exceptPure] at h
              injection h with h
              rw [← h]
              exact hi1
            · exact apptExtraShapes_inv w rest c1 n1 r
                (fun p hp => hbs p (List.mem_cons_of_mem _ hp)) h hi1

theorem satFillShapes_inv (w ordinal : Nat) :
    ∀ (shapes : List (Nat × Nat)) (c : DayCtx) (needed : Int) (r : DayCtx × Int),
      (∀ p ∈ shapes, placedHours w p.1 p.2 ≤ dayHourBound w) →
      satFillShapes ordinal shapes c needed = .ok r → DayInv w c → DayInv w r.1
  | [], c, needed, r, _, h, hi => by
      simp only [satFillShapes, exceptPure, Except.ok.injEq] at h
      rw [← h]
      exact hi
  | (start, stop) :: rest, c, needed, r, hbs, h, hi => by
      simp only [satFillShapes] at h
      split at h
      · rw [exceptPure] at h
        injection h with h
        rw [← h]
        exact hi
      · cases hin : satFillInner ordinal start stop (sortedByMonthly c.monthlyHours) c needed with
        | error e =>
            rw [hin, exceptBind_error] at h
            exact absurd h (by simp)
        | ok p =>
            obtain ⟨c1, n1⟩ := p
            rw [hin, exceptBind_ok] at h
            have hi1 : DayInv w c1 := satFillInner_inv w ordinal start stop
              (hbs (start, stop) (List.mem_cons_self _ _)) _ c needed (c1, n1) hin hi
            split at h
            · rw [exceptPure] at h
              injection h with h
              rw [← h]
              exact hi1
            · exact satFillShapes_inv w ordinal rest c1 n1 r
                (fun p hp => hbs p (List.mem_cons_of_mem _ hp)) h hi1

theorem ablePlace_inv (c c' : DayCtx) (v : DVM) (ci co : Nat) (dt : DAY_TYPE) (w : Nat)
    (h : (do
      let able ← c.day.ableToSchedule v ci co
      if able then c.placeAndCount v ci co dt else pure c) = .ok c')
    (hi : DayInv w c) (hb : placedHours w ci co ≤ dayHourBound w) : DayInv w c' := by
  cases hab : c.day.ableToSchedule v ci co with
  | error e =>
      rw [hab, exceptBind_error] at h
      exact absurd h (by simp)
  | ok b =>
      rw [hab, exceptBind_ok] at h
      cases b with
      | true =>
          rw [if_pos rfl] at h
          exact placeAndCount_inv c c' v ci co dt w h hi hb
      | false =>
          rw [if_neg (by simp), exceptPure] at h
          injection h with h
          rw [← h]
          exact hi

theorem phaseLO_inv (c c' : DayCtx) (w : Nat) (h : phaseLO c = .ok c')
    (hi : DayInv w c) (h5 : w ≤ 5) (h2 : w ≠ 2) (h4 : w ≠ 4) : DayInv w c' := by
  have hw := hi.2
  have hb : placedHours w 8 (if c.day.weekday < 2 then 19 else 17) ≤ dayHourBound w := by
    rw [hw]
    exact placedHours_le w 8 _ h5 h2 h4 rfl (Or.inl rfl)
  unfold phaseLO at h
  dsimp only at h
  by_cases h0 : c.day.weekday = 0
  · rw [if_pos h0] at h
    exact ablePlace_inv c c' DVM.LO 8 _ DAY_TYPE.APPOINTMENT w h hi hb
  · rw [if_neg h0] at h
    by_cases h1 : c.day.weekday = 1
    · rw [if_pos h1] at h
      exact ablePlace_inv c c' DVM.LO 8 _ DAY_TYPE.BOTH w h hi hb
    · rw [if_neg h1] at h
      by_cases h3 : c.day.weekday = 3
      · rw [if_pos h3] at h
        exact ablePlace_inv c c' DVM.LO 8 _ DAY_TYPE.APPOINTMENT w h hi hb
      · rw [if_neg h3, exceptPure] at h
        injection h with h
        rw [← h]
        exact hi

theorem phaseJA_inv (c c' : DayCtx) (w : Nat) (h : phaseJA c = .ok c')
    (hi : DayInv w c) (h5 : w ≤ 5) (h2 : w ≠ 2) (h4 : w ≠ 4) : DayInv w c' := by
  have hw := hi.2
  unfold phaseJA at h
  split at h
  · refine tryPlace_inv c c' DVM.JA 8 _ DAY_TYPE.BOTH w h hi ?_
    rw [hw]
    exact placedHours_le w 8 _ h5 h2 h4 rfl (Or.inl rfl)
  · rw [exceptPure] at h
    injection h with h
    rw [← h]
    exact hi

/-- `phaseLP` is the identity off Fridays (and `scheduleDay` never reaches it on a
Friday). -/
theorem phaseLP_id (c c' : DayCtx) (h : phaseLP c = .ok c')
    (h4 : c.day.weekday ≠ 4) : c' = c := by
  unfold phaseLP at h
  rw [if_neg h4, exceptPure] at h
  injection h with h
  exact h.symm

theorem phaseSurgeon_inv (c c' : DayCtx) (w : Nat) (h : phaseSurgeon c = .ok c')
    (hi : DayInv w c) (h5 : w ≤ 5) (h2 : w ≠ 2) (h4 : w ≠ 4) : DayInv w c' := by
  have hw := hi.2
  have hb : placedHours w 8 13 ≤ dayHourBound w :=
    placedHours_le w 8 13 h5 h2 h4 rfl (Or.inr (Or.inr rfl))
  unfold phaseSurgeon at h
  try dsimp only at h
  by_cases hne : c.day.weekday ≠ 2
  · rw [if_pos hne] at h
    cases hpo : (match surgeonPrimary c.day.weekday with
      | some p =>
          if p.value ≠ 0 ∧ p ≠ DVM.EDS then c.canAddToSchedule p 8 13 else pure false
      | none => pure false : Except String Bool) with
    | error e =>
        rw [hpo, exceptBind_error] at h
        exact absurd h (by simp)
    | ok pok =>
        rw [hpo, exceptBind_ok] at h
        try dsimp only at h
        cases pok with
        | false =>
            rw [if_neg (by simp)] at h
            cases hf : surgeonFallback c [DVM.LP, DVM.LO, DVM.EJS, DVM.JA] with
            | error e =>
                rw [hf, exceptBind_error] at h
                exact absurd h (by simp)
            | ok osg =>
                rw [hf, exceptBind_ok] at h
                cases osg with
                | some sg =>
                    try dsimp only at h
                    by_cases hz : sg.value ≠ 0
                    · rw [if_pos hz] at h
                      exact placeAndCount_inv c c' sg 8 13 _ w h hi hb
                    · rw [if_neg hz, exceptPure] at h
                      injection h with h
                      rw [← h]
                      exact hi
                | none =>
                    try dsimp only at h
                    rw [exceptPure] at h
                    injection h with h
                    rw [← h]
                    exact hi
        | true =>
            rw [if_pos rfl, exceptPure, exceptBind_ok] at h
            cases hsp : surgeonPrimary c.day.weekday with
            | some sg =>
                rw [hsp] at h
                try dsimp only at h
                by_cases hz : sg.value ≠ 0
                · rw [if_pos hz] at h
                  exact placeAndCount_inv c c' sg 8 13 _ w h hi hb
                · rw [if_neg hz, exceptPure] at h
                  injection h with h
                  rw [← h]
                  exact hi
            | none =>
                rw [hsp] at h
                try dsimp only at h
                rw [exceptPure] at h
                injection h with h
                rw [← h]
                exact hi
  · rw [if_neg hne, exceptPure] at h
    injection h with h
    rw [← h]
    exact hi

theorem phaseSat_inv (c : DayCtx) (w lastThroughHour : Nat) (needed : Int)
    (r : DayCtx × Int) (h : phaseSat lastThroughHour c needed = .ok r)
    (hi : DayInv w c) (h5 : w ≤ 5) (h2 : w ≠ 2) (h4 : w ≠ 4)
    (hlth : lastThroughHour = if w < 2 then 19 else 17) : DayInv w r.1 := by
  have hb13 : placedHours w 8 13 ≤ dayHourBound w :=
    placedHours_le w 8 13 h5 h2 h4 rfl (Or.inr (Or.inr rfl))
  have hshapes : ∀ p ∈ [(8, lastThroughHour), (8, 14)],
      placedHours w p.1 p.2 ≤ dayHourBound w := by
    intro p hp
    rcases List.mem_cons.mp hp with hp1 | hp2
    · rw [hp1]
      exact placedHours_le w 8 _ h5 h2 h4 rfl (Or.inl hlth)
    · rw [List.mem_singleton.mp hp2]
      exact placedHours_le w 8 14 h5 h2 h4 rfl (Or.inr (Or.inl rfl))
  unfold phaseSat at h
  dsimp only at h
  cases hc1 : (do
      if (c.sched.filter (fun d => d.weekday = 5 ∧ d.date < c.day.date)).length + 1
          ≠ c.satSurgeonDayOff then do
        let ok ← c.canAddToSchedule c.satSurgeon 8 13
        if ok then do
          let c' ← c.placeAndCount c.satSurgeon 8 13 DAY_TYPE.SURGERY
          pure (c'.recordSat c.satSurgeon
            ((c.sched.filter (fun d => d.weekday = 5 ∧ d.date < c.day.date)).length + 1))
        else pure c
      else pure c : Except String DayCtx) with
  | error e =>
      rw [hc1] at h
      exact absurd h (by simp [exceptBind_error])
  | ok c1 =>
      rw [hc1, exceptBind_ok] at h
      have hi1 : DayInv w c1 := by
        revert hc1
        split
        · intro hc1
          cases hca : c.canAddToSchedule c.satSurgeon 8 13 with
          | error e =>
              rw [hca, exceptBind_error] at hc1
              exact absurd hc1 (by simp)
          | ok b =>
              rw [hca, exceptBind_ok] at hc1
              cases b with
              | true =>
                  rw [if_pos rfl] at hc1
                  cases hpc : c.placeAndCount c.satSurgeon 8 13 DAY_TYPE.SURGERY with
                  | error e =>
                      rw [hpc, exceptBind_error] at hc1
                      exact absurd hc1 (by simp)
                  | ok c2 =>
                      rw [hpc, exceptBind_ok, exceptPure] at hc1
                      injection hc1 with hc1
                      rw [← hc1]
                      exact recordSat_inv c2 _ _ w
                        (placeAndCount_inv c c2 _ 8 13 _ w hpc hi hb13)
              | false =>
                  rw [if_neg (by simp), exceptPure] at hc1
                  injection hc1 with hc1
                  rw [← hc1]
                  exact hi
        · intro hc1
          rw [exceptPure] at hc1
          injection hc1 with hc1
          rw [← hc1]
          exact hi
      exact satFillShapes_inv w _ _ c1 needed r hshapes h hi1

theorem goodDay_lunchUpd (day : WorkDay) (d : DVM) (st : Nat) (hg : GoodDay day) :
    GoodDay { day with shifts := (fun u =>
      if u = d then { day.shifts d with lunchStart := some st } else day.shifts u) } := by
  obtain ⟨h5, hsh⟩ := hg
  refine ⟨h5, fun u => ?_⟩
  show ((if u = d then _ else day.shifts u).dayNum = day.weekday ∧
    (if u = d then _ else day.shifts u).workedHours ≤ dayHourBound day.weekday)
  by_cases hu : u = d
  · subst hu
    simp only [if_pos rfl]
    refine ⟨(hsh u).1, le_trans (le_of_eq ?_) (hsh u).2⟩
    apply Shift.workedHours_fields <;> rfl
  · simp only [if_neg hu]
    exact hsh u

theorem assignLunches_inv (ws we : Nat) :
    ∀ (ds : List DVM) (i : Nat) (day : WorkDay), GoodDay day →
      GoodDay (assignLunches ws we ds i day)
        ∧ (assignLunches ws we ds i day).weekday = day.weekday
  | [], _, day, hg => ⟨hg, rfl⟩
  | d :: rest, i, day, hg => by
      simp only [assignLunches]
      have hg' := goodDay_lunchUpd day d (if we ≤ ws + i then ws else ws + i) hg
      have hrec := assignLunches_inv ws we rest (i + 1) _ hg'
      exact ⟨hrec.1, hrec.2⟩

theorem staggerLunches_inv (c : DayCtx) (w : Nat) (hi : DayInv w c) :
    DayInv w (staggerLunches c) := by
  obtain ⟨hg, hw⟩ := hi
  have hrec := assignLunches_inv 12 (if c.day.weekday < 2 then 14 else 13)
    (List.insertionSort
      (fun a b =>
        ((if a = DVM.LP then 0 else 1), c.monthlyHours a).1
            < ((if b = DVM.LP then 0 else 1), c.monthlyHours b).1
          ∨ ((if a = DVM.LP then 0 else 1), c.monthlyHours a).1
              = ((if b = DVM.LP then 0 else 1), c.monthlyHours b).1
            ∧ ((if a = DVM.LP then 0 else 1), c.monthlyHours a).2
              ≤ ((if b = DVM.LP then 0 else 1), c.monthlyHours b).2)
      (DVM.all.filter (fun d =>
        (match (c.day.shifts d).clockOut with
         | some co => decide (14 < co)
         | none => false)
        && decide ((c.day.shifts d).dayType ≠ some DAY_TYPE.SURGERY))))
    0 c.day hg
  exact ⟨hrec.1, hrec.2.trans hw⟩

theorem goodSched_set (sched : List WorkDay) (idx : Nat) (d : WorkDay)
    (hg : GoodSched sched) (hd : GoodDay d) : GoodSched (sched.set idx d) := by
  intro x hx
  rcases List.mem_or_eq_of_mem_set hx with hmem | heq
  · exact hg x hmem
  · rw [heq]
    exact hd

theorem wdAt_good (s : Scheduler) (idx : Nat) (hg : GoodSched s.schedule) :
    GoodDay (s.wdAt idx) := by
  unfold Scheduler.wdAt
  by_cases hlt : idx < s.schedule.length
  · rw [List.getD_eq_getElem s.schedule _ hlt]
    exact hg _ (List.getElem_mem hlt)
  · rw [List.getD_eq_default _ _ (Nat.le_of_not_lt hlt)]
    exact goodDay_mkWorkDay 0 0 0 0 false "" (by omega)

theorem scheduleDay_good (s s' : Scheduler) (idx : Nat)
    (h : scheduleDay s idx = .ok s') (hg : GoodSched s.schedule) :
    GoodSched s'.schedule := by
  have hday : GoodDay (s.wdAt idx) := wdAt_good s idx hg
  unfold scheduleDay at h
  dsimp only at h
  by_cases h24 : (s.wdAt idx).weekday = 2 ∨ (s.wdAt idx).weekday = 4
  · rw [if_pos h24, exceptPure] at h
    injection h with h
    rw [← h]
    exact hg
  · rw [if_neg h24] at h
    have h2 : (s.wdAt idx).weekday ≠ 2 := fun hx => h24 (Or.inl hx)
    have h4 : (s.wdAt idx).weekday ≠ 4 := fun hx => h24 (Or.inr hx)
    have h5 : (s.wdAt idx).weekday ≤ 5 := hday.1
    have hshapes : ∀ p ∈ [(8, if (s.wdAt idx).weekday < 2 then 19 else 17), (8, 14)],
        placedHours (s.wdAt idx).weekday p.1 p.2 ≤ dayHourBound (s.wdAt idx).weekday := by
      intro p hp
      rcases List.mem_cons.mp hp with hp1 | hp2
      · rw [hp1]
        exact placedHours_le _ 8 _ h5 h2 h4 rfl (Or.inl rfl)
      · rw [List.mem_singleton.mp hp2]
        exact placedHours_le _ 8 14 h5 h2 h4 rfl (Or.inr (Or.inl rfl))
    have hic0 : DayInv (s.wdAt idx).weekday (mkDayCtx s idx) := ⟨hday, rfl⟩
    cases hp1 : phaseLO (mkDayCtx s idx) with
    | error e =>
        rw [hp1, exceptBind_error] at h
        exact absurd h (by simp)
    | ok c1 =>
        rw [hp1, exceptBind_ok] at h
        have hi1 := phaseLO_inv _ c1 _ hp1 hic0 h5 h2 h4
        cases hp2 : phaseJA c1 with
        | error e =>
            rw [hp2, exceptBind_error] at h
            exact absurd h (by simp)
        | ok c2 =>
            rw [hp2, exceptBind_ok] at h
            have hi2 := phaseJA_inv c1 c2 _ hp2 hi1 h5 h2 h4
            cases hp3 : phaseLP c2 with
            | error e =>
                rw [hp3, exceptBind_error] at h
                exact absurd h (by simp)
            | ok c3 =>
                rw [hp3, exceptBind_ok] at h
                have hc32 : c3 = c2 := phaseLP_id c2 c3 hp3 (by rw [hi2.2]; exact h4)
                have hi3 : DayInv (s.wdAt idx).weekday c3 := hc32 ▸ hi2
                cases hp4 : phaseSurgeon c3 with
                | error e =>
                    rw [hp4, exceptBind_error] at h
                    exact absurd h (by simp)
                | ok c4 =>
                    rw [hp4, exceptBind_ok] at h
                    have hi4 := phaseSurgeon_inv c3 c4 _ hp4 hi3 h5 h2 h4
                    cases hp5 : (do
                        if (s.wdAt idx).weekday = 5 then do
                          let ca ← phaseSat (if (s.wdAt idx).weekday < 2 then 19 else 17) c4 2
                          pure ca.1
                        else do
                          let ca ← apptNeededShapes
                            [(8, if (s.wdAt idx).weekday < 2 then 19 else 17), (8, 14)] c4 2
                          let cb ← apptExtraShapes
                            [(8, if (s.wdAt idx).weekday < 2 then 19 else 17), (8, 14)] ca.1 1
                          pure cb.1 : Except String DayCtx) with
                    | error e =>
                        rw [hp5, exceptBind_error] at h
                        exact absurd h (by simp)
                    | ok c5 =>
                        rw [hp5, exceptBind_ok] at h
                        have hi5 : DayInv (s.wdAt idx).weekday c5 := by
                          revert hp5
                          split
                          · intro hp5
                            cases hps : phaseSat
                                (if (s.wdAt idx).weekday < 2 then 19 else 17) c4 2 with
                            | error e =>
                                rw [hps, exceptBind_error] at hp5
                                exact absurd hp5 (by simp)
                            | ok p =>
                                rw [hps, exceptBind_ok, exceptPure] at hp5
                                injection hp5 with hp5
                                rw [← hp5]
                                exact phaseSat_inv c4 _ _ 2 p hps hi4 h5 h2 h4 rfl
                          · intro hp5
                            cases hna : apptNeededShapes
                                [(8, if (s.wdAt idx).weekday < 2 then 19 else 17), (8, 14)]
                                c4 2 with
                            | error e =>
                                rw [hna, exceptBind_error] at hp5
                                exact absurd hp5 (by simp)
                            | ok pa =>
                                rw [hna, exceptBind_ok] at hp5
                                have hia := apptNeededShapes_inv _ _ c4 2 pa hshapes hna hi4
                                cases hxa : apptExtraShapes
                                    [(8, if (s.wdAt idx).weekday < 2 then 19 else 17), (8, 14)]
                                    pa.1 1 with
                                | error e =>
                                    rw [hxa, exceptBind_error] at hp5
                                    exact absurd hp5 (by simp)
                                | ok pb =>
                                    rw [hxa, exceptBind_ok, exceptPure] at hp5
                                    injection hp5 with hp5
                                    rw [← hp5]
                                    exact apptExtraShapes_inv _ _ pa.1 1 pb hshapes hxa hia
                        cases hp6 : (do
                            if c5.day.getNumApptsOnShift < 2 then
                              fallbackAppts (if (s.wdAt idx).weekday < 2 then 19 else 17)
                                (sortedByMonthly c5.monthlyHours) c5
                            else pure c5 : Except String DayCtx) with
                        | error e =>
                            rw [hp6, exceptBind_error] at h
                            exact absurd h (by simp)
                        | ok c6 =>
                            rw [hp6, exceptBind_ok] at h
                            have hi6 : DayInv (s.wdAt idx).weekday c6 := by
                              revert hp6
                              split
                              · intro hp6
                                exact fallbackAppts_inv _ _
                                  (placedHours_le _ 8 _ h5 h2 h4 rfl (Or.inl rfl))
                                  _ c5 c6 hp6 hi5
                              · intro hp6
                                rw [exceptPure] at hp6
                                injection hp6 with hp6
                                rw [← hp6]
                                exact hi5
                            have hi7 := staggerLunches_inv c6 _ hi6
                            rw [exceptPure] at h
                            injection h with h
                            rw [← h]
                            exact goodSched_set s.schedule idx _ hg hi7.1

theorem processWeek_good :
    ∀ (ds : List Nat) (s s' : Scheduler), processWeek ds s = .ok s' →
      GoodSched s.schedule → GoodSched s'.schedule
  | [], s, s', h, hg => by
      simp only [processWeek, exceptPure, Except.ok.injEq] at h
      rw [← h]
      exact hg
  | idx :: rest, s, s', h, hg => by
      simp only [processWeek] at h
      cases hsd : scheduleDay s idx with
      | error e =>
          rw [hsd, exceptBind_error] at h
          exact absurd h (by simp)
      | ok s1 =>
          rw [hsd, exceptBind_ok] at h
          exact processWeek_good rest s1 s' h (scheduleDay_good s s1 idx hsd hg)

theorem greedyLoop_good :
    ∀ (rest : List Nat) (week : List Nat) (s s' : Scheduler),
      greedyLoop week rest s = .ok s' → GoodSched s.schedule → GoodSched s'.schedule
  | [], week, s, s', h, hg => by
      simp only [greedyLoop] at h
      split at h
      · rw [exceptPure] at h
        injection h with h
        rw [← h]
        exact hg
      · exact processWeek_good week (resetWeekly s) s' h hg
  | idx :: rest, week, s, s', h, hg => by
      simp only [greedyLoop] at h
      split at h
      · split at h
        · cases hpw : processWeek (week ++ [idx]) (resetWeekly s) with
          | error e =>
              rw [hpw, exceptBind_error] at h
              exact absurd h (by simp)
          | ok s1 =>
              rw [hpw, exceptBind_ok] at h
              exact greedyLoop_good rest [] s1 s' h
                (processWeek_good _ (resetWeekly s) s1 hpw hg)
        · exact greedyLoop_good rest (week ++ [idx]) s s' h hg
      · split at h
        · cases hpw : processWeek week (resetWeekly s) with
          | error e =>
              rw [hpw, exceptBind_error] at h
              exact absurd h (by simp)
          | ok s1 =>
              rw [hpw, exceptBind_ok] at h
              exact greedyLoop_good rest [] s1 s' h
                (processWeek_good _ (resetWeekly s) s1 hpw hg)
        · exact greedyLoop_good rest week s s' h hg

theorem generateGreedy_good (s s' : Scheduler) (h : generateGreedy s = .ok s')
    (hg : GoodSched s.schedule) : GoodSched s'.schedule := by
  unfold generateGreedy at h
  exact greedyLoop_good _ [] _ s' h hg

/-- A swap between two workers of one day preserves the per-day invariant. -/
theorem swapShifts_good (day : WorkDay) (a b : DVM) (hg : GoodDay day) :
    GoodDay (swapShifts day a b) := by
  obtain ⟨h5, hsh⟩ := hg
  refine ⟨h5, fun u => ?_⟩
  unfold swapShifts
  dsimp only
  by_cases hua : u = a
  · rw [if_pos hua]
    refine ⟨(hsh a).1, le_trans (le_of_eq ?_) (hsh b).2⟩
    apply Shift.workedHours_fields
    · rfl
    · rfl
    · rw [show ({ day.shifts a with
        clockIn := (day.shifts b).clockIn
        clockOut := (day.shifts b).clockOut
        dayType := (day.shifts b).dayType
        lunchStart := (day.shifts b).lunchStart } : Shift).dayNum
          = (day.shifts a).dayNum from rfl, (hsh a).1, (hsh b).1]
  · rw [if_neg hua]
    by_cases hub : u = b
    · rw [if_pos hub]
      refine ⟨(hsh b).1, le_trans (le_of_eq ?_) (hsh a).2⟩
      apply Shift.workedHours_fields
      · rfl
      · rfl
      · rw [show ({ day.shifts b with
          clockIn := (day.shifts a).clockIn
          clockOut := (day.shifts a).clockOut
          dayType := (day.shifts a).dayType
          lunchStart := (day.shifts a).lunchStart } : Shift).dayNum
            = (day.shifts b).dayNum from rfl, (hsh a).1, (hsh b).1]
    · rw [if_neg hub]
      exact hsh u

/-- Every hill-climbing neighbor of a good schedule is good. -/
theorem neighbors_good (s : Scheduler) (nb : Scheduler) (hnb : nb ∈ s.neighbors)
    (hg : GoodSched s.schedule) : GoodSched nb.schedule := by
  unfold Scheduler.neighbors at hnb
  rw [List.mem_flatMap] at hnb
  obtain ⟨idx, _, hmem⟩ := hnb
  unfold Scheduler.neighborsAt at hmem
  dsimp only at hmem
  split at hmem
  · simp at hmem
  · rw [List.mem_filterMap] at hmem
    obtain ⟨p, _, hp⟩ := hmem
    split at hp
    · injection hp with hp
      rw [← hp]
      exact goodSched_set s.schedule idx _ hg
        (swapShifts_good (s.wdAt idx) p.1 p.2 (wdAt_good s idx hg))
    · exact absurd hp (by simp)

/-- `recalcHours` leaves the schedule unchanged. -/
theorem recalcHours_schedule (s : Scheduler) : (s.recalcHours).schedule = s.schedule := rfl

theorem improve_good (s : Scheduler) (best : Int) (nb : Scheduler) (sc : Int)
    (h : s.improve best = some (nb, sc)) (hg : GoodSched s.schedule) :
    GoodSched nb.schedule := by
  have hmem := List.mem_of_find?_eq_some h
  simp only [List.mem_map] at hmem
  obtain ⟨nb0, hnb0, heq⟩ := hmem
  have hn : nb = nb0.recalcHours := by
    have := congrArg Prod.fst heq
    simpa using this.symm
  rw [hn, recalcHours_schedule]
  exact neighbors_good s nb0 hnb0 hg

theorem hillClimbGo_good :
    ∀ (fuel : Nat) (cur : Scheduler) (best : Int), GoodSched cur.schedule →
      GoodSched (hillClimbGo fuel cur best).1.schedule
  | 0, cur, best, hg => hg
  | fuel + 1, cur, best, hg => by
      simp only [hillClimbGo]
      cases h : cur.improve best with
      | none => exact hg
      | some p =>
          obtain ⟨nb, sc⟩ := p
          exact hillClimbGo_good fuel nb sc (improve_good cur best nb sc h hg)

theorem hillClimb_good (s : Scheduler) (hg : GoodSched s.schedule) :
    GoodSched (s.hillClimb).schedule :=
  hillClimbGo_good _ s s.evaluate hg

theorem exceptMap_ok {α β : Type} (f : α → β) (a : α) :
    (Except.map f (.ok a) : Except String β) = .ok (f a) := rfl

theorem exceptMap_error {α β : Type} (f : α → β) (e : String) :
    (Except.map f (.error e) : Except String β) = .error e := rfl

theorem foldlM_preserve {α σ : Type} (P : σ → Prop) (f : σ → α → Except String σ)
    (hf : ∀ st a st', f st a = .ok st' → P st → P st') :
    ∀ (l : List α) (st st' : σ), l.foldlM f st = .ok st' → P st → P st'
  | [], st, st', h, hp => by
      simp only [List.foldlM_nil] at h
      rw [exceptPure] at h
      injection h with h
      rw [← h]
      exact hp
  | a :: t, st, st', h, hp => by
      simp only [List.foldlM_cons] at h
      cases hfa : f st a with
      | error e =>
          rw [hfa, exceptBind_error] at h
          exact absurd h (by simp)
      | ok s1 =>
          rw [hfa, exceptBind_ok] at h
          exact foldlM_preserve P f hf t s1 st' h (hf st a s1 hfa hp)

theorem goodDay_setVacation (d d' : WorkDay) (v : DVM) (a b : Nat)
    (h : d.setVacation v a b = .ok d') (hg : GoodDay d) : GoodDay d' := by
  unfold WorkDay.setVacation at h
  split at h
  · exact absurd h (by simp)
  · injection h with h
    rw [← h]
    obtain ⟨h5, hsh⟩ := hg
    refine ⟨h5, fun u => ?_⟩
    show ((if u = v then _ else d.shifts u).dayNum = d.weekday ∧
      (if u = v then _ else d.shifts u).workedHours ≤ dayHourBound d.weekday)
    by_cases hu : u = v
    · subst hu
      simp only [if_pos rfl]
      refine ⟨(hsh u).1, le_trans (le_of_eq ?_) (hsh u).2⟩
      apply Shift.workedHours_fields <;> rfl
    · simp only [if_neg hu]
      exact hsh u

theorem applyVacations_good (off : Nat) (va : List (List (Nat × Nat × Nat)))
    (sched sched' : List WorkDay) (h : applyVacations off va sched = .ok sched')
    (hg : GoodSched sched) : GoodSched sched' := by
  unfold applyVacations at h
  refine foldlM_preserve GoodSched _ ?_ DVM.all sched sched' h hg
  intro st dvm st' hstep hp
  refine foldlM_preserve GoodSched _ ?_ (va.getD dvm.value []) st st' hstep hp
  intro st2 v st2' hstep2 hp2
  dsimp only at hstep2
  split at hstep2
  · split at hstep2
    · rename_i wd hget
      cases hsv : wd.setVacation dvm v.2.1 v.2.2 with
      | error e =>
          rw [hsv, exceptMap_error] at hstep2
          exact absurd hstep2 (by simp)
      | ok wd' =>
          rw [hsv, exceptMap_ok] at hstep2
          injection hstep2 with hstep2
          rw [← hstep2]
          refine goodSched_set st2 _ wd' hp2 ?_
          exact goodDay_setVacation wd wd' dvm v.2.1 v.2.2 hsv
            (hp2 wd (List.getElem?_mem hget))
    · rw [exceptPure] at hstep2
      injection hstep2 with hstep2
      rw [← hstep2]
      exact hp2
  · rw [exceptPure] at hstep2
    injection hstep2 with hstep2
    rw [← hstep2]
    exact hp2

theorem inMonthDays_good (month year fw nd : Nat) (cd : Nat → Option String) :
    GoodSched (inMonthDays month year fw nd cd) := by
  intro d hd
  unfold inMonthDays at hd
  rw [List.mem_filterMap] at hd
  obtain ⟨day, _, hmk⟩ := hd
  dsimp only at hmk
  split at hmk
  · exact absurd hmk (by simp)
  · injection hmk with hmk
    rw [← hmk]
    apply goodDay_mkWorkDay
    rename_i hne
    have h7 : (fw + day - 1) % 7 < 7 := Nat.mod_lt _ (by omega)
    omega

theorem trailingDays_good (month year off : Nat) :
    GoodSched (trailingDays month year off) := by
  intro d hd
  unfold trailingDays at hd
  rw [List.mem_filterMap] at hd
  obtain ⟨pad, _, hmk⟩ := hd
  dsimp only at hmk
  split at hmk <;>
    (split at hmk
     · injection hmk with hmk
       rw [← hmk]
       apply goodDay_mkWorkDay
       omega
     · exact absurd hmk (by simp))

theorem goodSched_append (l1 l2 : List WorkDay) (h1 : GoodSched l1)
    (h2 : GoodSched l2) : GoodSched (l1 ++ l2) := by
  intro d hd
  rcases List.mem_append.mp hd with hm | hm
  · exact h1 d hm
  · exact h2 d hm

theorem mkScheduler_good (month year : Nat) (cd : Nat → Option String)
    (va : List (List (Nat × Nat × Nat))) (sg : DVM) (pd : Option (List WorkDay))
    (off : Nat) (s : Scheduler) (h : mkScheduler month year cd va sg pd off = .ok s)
    (hprev : ∀ l, pd = some l → ∀ d ∈ l, GoodDay d) : GoodSched s.schedule := by
  unfold mkScheduler at h
  split at h
  · exact absurd h (by simp)
  · dsimp only at h
    split at h
    · exact absurd h (by simp)
    · rename_i pdl hlead
      have hpdl : GoodSched pdl := by
        revert hlead
        split
        · split
          · cases pd with
            | none =>
                intro hlead
                exact absurd hlead (by simp)
            | some l =>
                dsimp only
                split
                · intro hlead
                  injection hlead with hlead
                  rw [← hlead]
                  exact hprev l rfl
                · intro hlead
                  exact absurd hlead (by simp)
          · intro hlead
            injection hlead with hlead
            rw [← hlead]
            intro d hd
            exact absurd hd (by simp)
        · intro hlead
          rw [if_neg (Nat.lt_irrefl 0)] at hlead
          injection hlead with hlead
          rw [← hlead]
          intro d hd
          exact absurd hd (by simp)
      split at h
      · exact absurd h (by simp)
      · rename_i sched hvac
        injection h with h
        rw [← h]
        exact applyVacations_good _ va _ sched hvac
          (goodSched_append _ _
            (goodSched_append _ _ hpdl (inMonthDays_good _ _ _ _ _))
            (trailingDays_good _ _ _))

/-! ### C3: the weekly 40-hour cap -/

/-- The `k`-th Monday–Saturday block of a schedule (six consecutive entries). -/
def weekChunk (sched : List WorkDay) (k : Nat) : List WorkDay :=
  (sched.drop (6 * k)).take 6

/-- A Monday–Saturday run of good days accumulates at most
10 + 10 + 0 + 9 + 0 + 9 = 38 ≤ 40 worked hours for each worker. -/
theorem goodWeek_sum_le (ds : List WorkDay) (v : DVM)
    (hmap : ds.map (fun d => d.weekday) = [0, 1, 2, 3, 4, 5])
    (hg : ∀ d ∈ ds, GoodDay d) : sumWorked ds v ≤ 40 := by
  rcases ds with _ | ⟨d0, _ | ⟨d1, _ | ⟨d2, _ | ⟨d3, _ | ⟨d4, _ | ⟨d5, _ | ⟨d6, t⟩⟩⟩⟩⟩⟩⟩ <;>
    simp at hmap
  obtain ⟨h0, h1, h2, h3, h4, h5⟩ := hmap
  have b0 := ((hg d0 (by simp)).2 v).2
  have b1 := ((hg d1 (by simp)).2 v).2
  have b2 := ((hg d2 (by simp)).2 v).2
  have b3 := ((hg d3 (by simp)).2 v).2
  have b4 := ((hg d4 (by simp)).2 v).2
  have b5 := ((hg d5 (by simp)).2 v).2
  rw [h0] at b0
  rw [h1] at b1
  rw [h2] at b2
  rw [h3] at b3
  rw [h4] at b4
  rw [h5] at b5
  have e0 : dayHourBound 0 = 10 := by decide
  have e1 : dayHourBound 1 = 10 := by decide
  have e2 : dayHourBound 2 = 0 := by decide
  have e3 : dayHourBound 3 = 9 := by decide
  have e4 : dayHourBound 4 = 0 := by decide
  have e5 : dayHourBound 5 = 9 := by decide
  rw [e0] at b0
  rw [e1] at b1
  rw [e2] at b2
  rw [e3] at b3
  rw [e4] at b4
  rw [e5] at b5
  unfold sumWorked
  simp only [List.map_cons, List.map_nil, List.sum_cons, List.sum_nil]
  omega

/-- **C3.** For every worker and every complete week (six consecutive Monday–Saturday
`WorkDay`s) of a schedule produced by the constructor followed by
`generateSchedule`, the sum of that worker's worked hours (per `Shift.workedHours`)
over the week is at most 40.  Prior-month lead days supplied by the caller are
assumed to satisfy the same per-day bounds the engine itself maintains. -/
theorem C3_weekly_hours_cap (month year : Nat) (cd : Nat → Option String)
    (va : List (List (Nat × Nat × Nat))) (sg : DVM) (pd : Option (List WorkDay))
    (off : Nat) (g : Scheduler)
    (hrun : (mkScheduler month year cd va sg pd off >>= Scheduler.generateSchedule)
      = .ok g)
    (hprev : ∀ l, pd = some l → ∀ d ∈ l, GoodDay d)
    (k : Nat) (v : DVM)
    (hweek : (weekChunk g.schedule k).map (fun d => d.weekday) = [0, 1, 2, 3, 4, 5]) :
    sumWorked (weekChunk g.schedule k) v ≤ 40 := by
  cases hmk : mkScheduler month year cd va sg pd off with
  | error e =>
      rw [hmk, exceptBind_error] at hrun
      exact absurd hrun (by simp)
  | ok s0 =>
      rw [hmk, exceptBind_ok] at hrun
      unfold Scheduler.generateSchedule at hrun
      cases hgr : generateGreedy s0 with
      | error e =>
          rw [hgr, exceptMap_error] at hrun
          exact absurd hrun (by simp)
      | ok s1 =>
          rw [hgr, exceptMap_ok] at hrun
          injection hrun with hrun
          have hg0 : GoodSched s0.schedule :=
            mkScheduler_good month year cd va sg pd off s0 hmk hprev
          have hg1 : GoodSched s1.schedule := generateGreedy_good s0 s1 hgr hg0
          have hgood : GoodSched g.schedule := by
            rw [← hrun]
            exact hillClimb_good s1 hg1
          refine goodWeek_sum_le _ v hweek ?_
          intro d hd
          unfold weekChunk at hd
          exact hgood d (List.mem_of_mem_drop (List.mem_of_mem_take hd))

/-- Concrete run for the C3 witness: February 2027 (starts on a Monday, ends on a
Sunday, so there are no padding days), every day closed. -/
def c3wRun : Except String Scheduler :=
  mkScheduler 2 2027 (fun _ => some "holiday") [] DVM.LP none 0 >>=
    Scheduler.generateSchedule

/-- Fallback scheduler used only to extract the `.ok` payload of `c3wRun`. -/
def dummyScheduler : Scheduler where
  month := 0
  year := 0
  firstWeekday := 0
  numDays := 0
  monthStartOffset := 0
  monthEndOffset := 0
  schedule := []
  satSurgeon := DVM.LO
  satSurgeonDayOff := 0
  saturdayRecord := fun _ => []
  weeklyHours := fun _ => 0
  monthlyHours := fun _ => 0

/-- The schedule generated by `c3wRun`. -/
def c3wSched : Scheduler := c3wRun.toOption.getD dummyScheduler

/-- Witness for C3 at a concrete run: February 2027 with every day closed; its first
week (Feb 1 Monday … Feb 6 Saturday) satisfies the 40-hour cap for `LO`. -/
theorem C3_weekly_hours_cap_witness :
    sumWorked (weekChunk c3wSched.schedule 0) DVM.LO ≤ 40 :=
  C3_weekly_hours_cap 2 2027 (fun _ => some "holiday") [] DVM.LP none 0 c3wSched
    (by rfl) (fun l hl => nomatch hl) 0 DVM.LO (by decide)
